import Mathlib

/-!
# Verification of the testQueue concurrent-queue family (sequential semantics)

This development gives a shallow embedding of the queue implementations of the
repository (MTQueue ring segment, SPSC ring, CRQueue segment, the bounded
adapters, the hazard-pointer table, the cache remap and the All2All mesh) and
proves, over the sequential (single-thread, quiescent) semantics, the
functional properties stated in the specification.

Modelling conventions:
* machine integers (`size_t`, `uint64_t`) are modelled as `Nat`; wrap-around is
  written explicitly (`% 2 ^ 64`) where the code relies on it;
* payload pointers are modelled as `Nat`; a nullable pointer is an
  `Option Nat` with `none` for `nullptr`;
* a compare-and-swap executed with no concurrent interference always succeeds,
  so a sequential CAS is modelled as a plain conditional write;
* a loop of the source whose body makes no progress in a quiescent state
  (a spin) is modelled by returning `none` from an `Option`-valued step, or by
  running the loop on explicit fuel.
-/

namespace TestQueue

/-- Payload pointers: the queues store opaque non-null pointers. -/
abbrev Item := Nat

/-! ## Bit-manipulation helpers shared by the segments

`tailIndex`, `isClosed` (QueueSegmentBase), `node_index`, `node_unsafe`,
`set_unsafe` (CRQueue) from the source. Bit 63 of a segment `tail` is the
closed flag, bit 63 of a cell `idx` is the unsafe flag. -/

/-- `tailIndex(t) = t & ~(1ull << 63)` from `QueueSegmentBase`. -/
def tailIndex (t : Nat) : Nat := t &&& (2 ^ 63 - 1)

/-- `isClosed(t) = (t & (1ull << 63)) != 0` from `QueueSegmentBase`. -/
def isClosed (t : Nat) : Bool := t &&& 2 ^ 63 != 0

/-- `node_index(i) = i & ~(1ull << 63)` from `CRQueue`. -/
def nodeIndex (i : Nat) : Nat := i &&& (2 ^ 63 - 1)

/-- `node_unsafe(i) = i & (1ull << 63)` from `CRQueue`. -/
def nodeUnsafe (i : Nat) : Nat := i &&& 2 ^ 63

/-- `set_unsafe(i) = i | (1ull << 63)` from `CRQueue`. -/
def setUnsafe (i : Nat) : Nat := i ||| 2 ^ 63

/-- Masking with `2 ^ k - 1` is reduction modulo `2 ^ k`. -/
theorem Nat.land_two_pow_sub_one_eq_mod (n k : Nat) :
    n &&& (2 ^ k - 1) = n % 2 ^ k := by
  apply Nat.eq_of_testBit_eq
  intro i
  rw [Nat.testBit_land, Nat.testBit_mod_two_pow]
  rcases Nat.lt_or_ge i k with h | h
  · simp [Nat.testBit_two_pow_sub_one, h]
  · simp [Nat.testBit_two_pow_sub_one, Nat.not_lt.2 h]

theorem tailIndex_eq_mod (t : Nat) : tailIndex t = t % 2 ^ 63 :=
  Nat.land_two_pow_sub_one_eq_mod t 63

theorem nodeIndex_eq_mod (i : Nat) : nodeIndex i = i % 2 ^ 63 :=
  Nat.land_two_pow_sub_one_eq_mod i 63

/-- For small values (no closed bit set) `tailIndex` is the identity. -/
theorem tailIndex_of_lt {t : Nat} (h : t < 2 ^ 63) : tailIndex t = t := by
  rw [tailIndex_eq_mod]; exact Nat.mod_eq_of_lt h

/-- For small values the closed flag reads as clear. -/
theorem isClosed_of_lt {t : Nat} (h : t < 2 ^ 63) : isClosed t = false := by
  have h0 : t &&& 2 ^ 63 = 0 := by
    rw [Nat.and_two_pow, Nat.testBit_lt_two_pow h]; simp
  simp only [isClosed, h0]
  simp

/-! ## Power-of-two helpers (`detail::isPowTwo`, `detail::nextPowTwo`)

From `RQCell.hpp`:
```
inline bool isPowTwo(size_t x){ return (x != 0 && (x & (x-1)) == 0); }
inline size_t nextPowTwo(size_t x){
    if(isPowTwo(x)) x++;
    size_t p=1;
    while (x>p) p <<= 1;
    return p;
}
```
The `while` loop is embedded with explicit fuel; fuel `x` is enough because
`p` doubles from `1` and `x ≤ 2 ^ x`. -/

namespace detail

def isPowTwo (x : Nat) : Bool := x != 0 && x &&& (x - 1) == 0

/-- The `while (x>p) p <<= 1` loop of `nextPowTwo`, on fuel. -/
def powLoop : Nat → Nat → Nat → Nat
  | 0, _, p => p
  | fuel + 1, x, p => if x > p then powLoop fuel x (p <<< 1) else p

def nextPowTwo (x : Nat) : Nat :=
  let y := if isPowTwo x then x + 1 else x
  powLoop y y 1

theorem powLoop_ge : ∀ (fuel x p : Nat), x ≤ p * 2 ^ fuel →
    x ≤ powLoop fuel x p := by
  intro fuel
  induction fuel with
  | zero => intro x p h; simpa using h
  | succ n ih =>
    intro x p h
    rw [powLoop]
    by_cases hxp : x > p
    · simp only [hxp, if_true]
      apply ih
      have : p <<< 1 = p * 2 := by simp [Nat.shiftLeft_eq]
      rw [this]
      calc x ≤ p * 2 ^ (n + 1) := h
        _ = p * 2 * 2 ^ n := by ring
    · simp only [hxp, if_false]
      omega

theorem powLoop_pow : ∀ (fuel x k : Nat), ∃ j, k ≤ j ∧
    powLoop fuel x (2 ^ k) = 2 ^ j := by
  intro fuel
  induction fuel with
  | zero => intro x k; exact ⟨k, le_refl k, rfl⟩
  | succ n ih =>
    intro x k
    rw [powLoop]
    by_cases hxp : x > 2 ^ k
    · simp only [hxp, if_true]
      have h2 : (2 ^ k) <<< 1 = 2 ^ (k + 1) := by
        simp [Nat.shiftLeft_eq, Nat.pow_succ]
      rw [h2]
      obtain ⟨j, hj, hres⟩ := ih x (k + 1)
      exact ⟨j, by omega, hres⟩
    · simp only [hxp, if_false]
      exact ⟨k, le_refl k, rfl⟩

theorem powLoop_lt_two_mul : ∀ (fuel x p : Nat), 0 < p → p < 2 * x →
    powLoop fuel x p < 2 * x := by
  intro fuel
  induction fuel with
  | zero => intro x p _ h; simpa using h
  | succ n ih =>
    intro x p hp h
    rw [powLoop]
    by_cases hxp : x > p
    · simp only [hxp, if_true]
      have : p <<< 1 = p * 2 := by simp [Nat.shiftLeft_eq]
      rw [this]
      exact ih x (p * 2) (by omega) (by omega)
    · simp only [hxp, if_false]
      exact h

/-- On a run of the loop started as in the source (`p = 1`, fuel `x`), the
result is at least `x`. -/
theorem powLoop_run_ge (x : Nat) : x ≤ powLoop x x 1 := by
  apply powLoop_ge
  have := Nat.lt_two_pow x
  omega

theorem powLoop_run_pow (x : Nat) : ∃ j, powLoop x x 1 = 2 ^ j := by
  obtain ⟨j, _, hres⟩ := powLoop_pow x x 0
  exact ⟨j, by simpa using hres⟩

theorem powLoop_run_lt (x : Nat) (hx : 0 < x) : powLoop x x 1 < 2 * x :=
  powLoop_lt_two_mul x x 1 (by omega) (by omega)

/-- Powers of two satisfy the `isPowTwo` bit test. -/
theorem isPowTwo_pow (k : Nat) : isPowTwo (2 ^ k) = true := by
  have hand : 2 ^ k &&& (2 ^ k - 1) = 0 := by
    rw [Nat.land_comm, Nat.and_two_pow, Nat.testBit_two_pow_sub_one]
    simp
  have h0 : (2 : Nat) ^ k ≠ 0 := by positivity
  simp [isPowTwo, hand, h0]

/-- The `x & (x-1) == 0` test only passes on powers of two. -/
theorem pow_of_isPowTwo : ∀ x : Nat, isPowTwo x = true → ∃ k, x = 2 ^ k := by
  intro x
  induction x using Nat.strong_induction_on with
  | _ x ih =>
    intro hx
    simp only [isPowTwo, Bool.and_eq_true, bne_iff_ne, ne_eq, beq_iff_eq] at hx
    obtain ⟨hx0, hand⟩ := hx
    rcases eq_or_ne x 1 with rfl | hx1
    · exact ⟨0, rfl⟩
    rcases Nat.even_or_odd x with ⟨m, hm⟩ | ⟨m, hm⟩
    · -- x = 2m even, m ≥ 1: x-1 = 2(m-1)+1 and x & (x-1) = 2*(m & (m-1))
      have hm1 : 1 ≤ m := by omega
      have hsub : x - 1 = 2 * (m - 1) + 1 := by omega
      have hx2 : x = 2 * m := by omega
      have hland : x &&& (x - 1) = 2 * (m &&& (m - 1)) := by
        rw [hsub, hx2]
        have h := Nat.land_bit false m true (m - 1)
        simp only [Nat.bit_false, Nat.bit_true, Bool.false_and] at h
        exact h
      have hm' : m &&& (m - 1) = 0 := by omega
      have : ∃ k, m = 2 ^ k := by
        apply ih m (by omega)
        simp [isPowTwo, hm']
        omega
      obtain ⟨k, hk⟩ := this
      exact ⟨k + 1, by rw [hx2, hk]; ring⟩
    · -- x = 2m+1 odd, x ≠ 1 so m ≥ 1: x & (x-1) = 2*(m & m) = 2m ≠ 0
      have hm1 : 1 ≤ m := by omega
      have hsub : x - 1 = 2 * m := by omega
      have hx2 : x = 2 * m + 1 := by omega
      have hland : x &&& (x - 1) = 2 * (m &&& m) := by
        rw [hsub, hx2]
        have h := Nat.land_bit true m false m
        simp only [Nat.bit_false, Nat.bit_true, Bool.and_false] at h
        exact h
      rw [Nat.and_self] at hland
      omega

/-- `nextPowTwo` always returns a power of two. -/
theorem nextPowTwo_pow (x : Nat) : ∃ j, nextPowTwo x = 2 ^ j := by
  unfold nextPowTwo
  exact powLoop_run_pow _

/-- `nextPowTwo x` is at least `x`. -/
theorem nextPowTwo_ge (x : Nat) : x ≤ nextPowTwo x := by
  unfold nextPowTwo
  rcases hx : isPowTwo x with h | h
  · simpa [hx] using powLoop_run_ge x
  · have := powLoop_run_ge (x + 1)
    simp only [hx, if_true]
    omega

/-- For a positive argument `nextPowTwo` returns at least `2`. -/
theorem nextPowTwo_two_le (x : Nat) (hx : 0 < x) : 2 ≤ nextPowTwo x := by
  rcases eq_or_ne x 1 with rfl | h1
  · decide
  · have := nextPowTwo_ge x
    omega

/-- On an argument that is not a power of two, `nextPowTwo` returns the least
power of two that is ≥ the argument. -/
theorem nextPowTwo_of_not_pow (x : Nat) (hx : 0 < x)
    (h : isPowTwo x = false) :
    x ≤ nextPowTwo x ∧ (∃ j, nextPowTwo x = 2 ^ j) ∧
      ∀ i, x ≤ 2 ^ i → nextPowTwo x ≤ 2 ^ i := by
  have hge : x ≤ nextPowTwo x := nextPowTwo_ge x
  obtain ⟨j, hj⟩ := nextPowTwo_pow x
  refine ⟨hge, ⟨j, hj⟩, ?_⟩
  intro i hi
  have hlt : nextPowTwo x < 2 * x := by
    unfold nextPowTwo
    simp only [h, if_false]
    exact powLoop_run_lt x hx
  -- 2 ^ j < 2 * x ≤ 2 ^ (i + 1), hence j ≤ i
  have h1 : 2 ^ j < 2 ^ (i + 1) := by
    calc 2 ^ j = nextPowTwo x := hj.symm
      _ < 2 * x := hlt
      _ ≤ 2 * 2 ^ i := by omega
      _ = 2 ^ (i + 1) := by ring
  have hji : j ≤ i := by
    by_contra hc
    have : 2 ^ (i + 1) ≤ 2 ^ j := Nat.pow_le_pow_right (by omega) (by omega)
    omega
  calc nextPowTwo x = 2 ^ j := hj
    _ ≤ 2 ^ i := Nat.pow_le_pow_right (by omega) hji

/-- On a power of two, `nextPowTwo` skips to the NEXT power: it returns `2 * x`,
not `x` (the `if(isPowTwo(x)) x++` line bumps the argument first). -/
theorem nextPowTwo_of_pow (k : Nat) : nextPowTwo (2 ^ k) = 2 ^ (k + 1) := by
  have hp := isPowTwo_pow k
  obtain ⟨j, hj⟩ := nextPowTwo_pow (2 ^ k)
  have hge : 2 ^ k + 1 ≤ nextPowTwo (2 ^ k) := by
    unfold nextPowTwo
    simp only [hp, if_true]
    exact powLoop_run_ge (2 ^ k + 1)
  have hlt : nextPowTwo (2 ^ k) < 2 * (2 ^ k + 1) := by
    unfold nextPowTwo
    simp only [hp, if_true]
    exact powLoop_run_lt (2 ^ k + 1) (by positivity)
  -- 2 ^ k < 2 ^ j ≤ 2 ^ (k+1) + 1, and the only such power is 2 ^ (k+1)
  have hjk : k + 1 ≤ j := by
    by_contra hc
    have : 2 ^ j ≤ 2 ^ k := Nat.pow_le_pow_right (by omega) (by omega)
    omega
  have hj1 : j ≤ k + 1 := by
    by_contra hc
    have h2 : 2 ^ (k + 2) ≤ 2 ^ j := Nat.pow_le_pow_right (by omega) (by omega)
    have h3 : 2 ^ (k + 2) = 4 * 2 ^ k := by ring
    have h4 : (1 : Nat) ≤ 2 ^ k := Nat.one_le_two_pow
    omega
  have : j = k + 1 := by omega
  rw [hj, this]

end detail

/-! ## Cache remap (`CacheRemap.hpp`)

```
static constexpr size_t cellsPerCacheLine = cache_line_size / cell_size;
CacheRemap(size_t size_par) : size(size_par),
    numCacheLines((size_par * cell_size) / cache_line_size) {}
constexpr inline size_t operator [](size_t i) const noexcept {
    return (i % numCacheLines) * cellsPerCacheLine + i / numCacheLines;
}
```
with `static_assert(cell_size != 0)` and
`static_assert((cache_line_size % cell_size) == 0)`. -/

/-- `CacheRemap::operator[]`. -/
def cacheRemapIndex (cellSize cacheLineSize size i : Nat) : Nat :=
  let cellsPerCacheLine := cacheLineSize / cellSize
  let numCacheLines := size * cellSize / cacheLineSize
  (i % numCacheLines) * cellsPerCacheLine + i / numCacheLines

/-- Packing `a * K + b` with `b < K` recovers `a` and `b` by division. -/
theorem pack_div_mod (K a b : Nat) (hb : b < K) :
    (a * K + b) / K = a ∧ (a * K + b) % K = b := by
  have hK : 0 < K := by omega
  constructor
  · rw [mul_comm a K, Nat.mul_add_div hK, Nat.div_eq_of_lt hb]
    omega
  · rw [mul_comm a K, Nat.mul_add_mod, Nat.mod_eq_of_lt hb]




/-- C9: for ring size `N`, cell size `cs` and cache-line size `cl` (with the
static asserts `cs ≠ 0` and `cl % cs = 0` of the source), put
`K = cl / cs` (cells per cache line) and `L = N * cs / cl` (cache lines).
`CacheRemap::operator[]` computes `i ↦ (i % L) * K + i / L`, and under the
precondition that `K` divides `N` (with `N > 0`, so `L ≥ 1`) this map
restricted to `[0, N)` is a bijection onto `[0, N)`. -/
theorem C9_cache_remap_bijection (cellSize cacheLineSize N : Nat)
    (hcs : 0 < cellSize) (hstatic : cacheLineSize % cellSize = 0)
    (hdvd : (cacheLineSize / cellSize) ∣ N) (hN : 0 < N) :
    Set.BijOn (cacheRemapIndex cellSize cacheLineSize N)
      (Set.Iio N) (Set.Iio N) := by
  set K := cacheLineSize / cellSize with hKdef
  set L := N * cellSize / cacheLineSize with hLdef
  have hf : ∀ i, cacheRemapIndex cellSize cacheLineSize N i
      = (i % L) * K + i / L := fun i => rfl
  have hKpos : 0 < K := by
    rcases Nat.eq_zero_or_pos K with h0 | h
    · rw [h0] at hdvd
      have := Nat.eq_zero_of_zero_dvd hdvd
      omega
    · exact h
  have hcl : cellSize * K = cacheLineSize :=
    Nat.mul_div_cancel' (Nat.dvd_of_mod_eq_zero hstatic)
  have hL : L = N / K := by
    rw [hLdef, ← hcl, mul_comm N cellSize, Nat.mul_div_mul_left _ _ hcs]
  have hNKL : N = K * L := by
    rw [hL]
    exact (Nat.mul_div_cancel' hdvd).symm
  have hLpos : 0 < L := by
    rcases Nat.eq_zero_or_pos L with h0 | h
    · rw [h0, Nat.mul_zero] at hNKL; omega
    · exact h
  have hmem : ∀ i, i ∈ Set.Iio N ↔ i < N := fun i => Iff.rfl
  refine ⟨?_, ?_, ?_⟩
  · -- maps [0, N) into [0, N)
    intro i hi
    rw [hmem] at hi ⊢
    rw [hf]
    have hdiv : i / L < K := by
      rw [Nat.div_lt_iff_lt_mul hLpos]
      omega
    have hmod : i % L < L := Nat.mod_lt i hLpos
    calc (i % L) * K + i / L < (i % L) * K + K := by omega
      _ = (i % L + 1) * K := by ring
      _ ≤ L * K := Nat.mul_le_mul_right K (by omega)
      _ = N := by rw [hNKL, mul_comm]
  · -- injective on [0, N)
    intro i hi j hj hij
    rw [hmem] at hi hj
    rw [hf, hf] at hij
    have hdi : i / L < K := by rw [Nat.div_lt_iff_lt_mul hLpos]; omega
    have hdj : j / L < K := by rw [Nat.div_lt_iff_lt_mul hLpos]; omega
    obtain ⟨hdivi, hmodi⟩ := pack_div_mod K (i % L) (i / L) hdi
    obtain ⟨hdivj, hmodj⟩ := pack_div_mod K (j % L) (j / L) hdj
    have h1 : i % L = j % L := by rw [← hdivi, ← hdivj, hij]
    have h2 : i / L = j / L := by rw [← hmodi, ← hmodj, hij]
    calc i = L * (i / L) + i % L := (Nat.div_add_mod i L).symm
      _ = L * (j / L) + j % L := by rw [h1, h2]
      _ = j := Nat.div_add_mod j L
  · -- surjective onto [0, N)
    intro v hv
    rw [hmem] at hv
    refine ⟨(v % K) * L + v / K, ?_, ?_⟩
    · rw [Set.mem_Iio]
      have hdv : v / K < L := by
        rw [Nat.div_lt_iff_lt_mul hKpos, mul_comm L K]
        omega
      have hmv : v % K < K := Nat.mod_lt v hKpos
      calc (v % K) * L + v / K < (v % K) * L + L := by omega
        _ = (v % K + 1) * L := by ring
        _ ≤ K * L := Nat.mul_le_mul_right L (by omega)
        _ = N := hNKL.symm
    · rw [hf]
      have hdv : v / K < L := by
        rw [Nat.div_lt_iff_lt_mul hKpos, mul_comm L K]
        omega
      obtain ⟨hdiv, hmod⟩ := pack_div_mod L (v % K) (v / K) hdv
      rw [hmod, hdiv]
      calc (v / K) * K + v % K = K * (v / K) + v % K := by ring
        _ = v := Nat.div_add_mod v K

/-- Witness for C9 at `cell_size = 16`, `cache_line = 64`, `N = 8`
(`K = 4` divides `N`): all hypotheses hold and the remap is a bijection. -/
theorem C9_witness : 0 < 16 ∧ 64 % 16 = 0 ∧ (64 / 16) ∣ 8 ∧ 0 < 8 ∧
    Set.BijOn (cacheRemapIndex 16 64 8) (Set.Iio 8) (Set.Iio 8) :=
  ⟨by decide, by decide, by decide, by decide,
    C9_cache_remap_bijection 16 64 8 (by decide) (by decide) (by decide)
      (by decide)⟩

/-! ## Hazard pointers (`HazardPointers.hpp`)

The table is a `maxThreads × maxHPs` matrix of nullable pointer slots plus a
per-thread retired list. `retire(ptr, tid)` appends `ptr` to the retired list
and then scans: for every object of the list it checks every slot of the whole
matrix (`for tid in [0,maxThreads)`, `for iHP in [maxHPs-1..0]`, a plain
disjunction over all slots) and deletes the object only when no slot holds it.
`THRESHOLD_R = 0`, so the `size() < THRESHOLD_R` early return never fires and
the scan runs on every call. The in-place indexed erase loop of the source
examines each element of the list exactly once, in order, which the recursion
below mirrors. -/

/-- The hazard matrix: one row per thread, one nullable pointer slot per
hazard index. Pointers are modelled as naturals. -/
abbrev HazardMatrix := List (List (Option Nat))

/-- The protection scan of `HazardPointers::retire`: an object is protected
iff some slot of the whole matrix holds it. -/
def inHazard (matrix : HazardMatrix) (obj : Nat) : Bool :=
  matrix.any (fun row => row.any (fun slot => slot == some obj))

/-- One retire scan over the retired list. Returns `(kept, deleted)`:
protected objects are kept in the retired list, unprotected ones are deleted
(`delete obj` in the source). -/
def retireScan (matrix : HazardMatrix) : List Nat → List Nat × List Nat
  | [] => ([], [])
  | p :: rest =>
    let r := retireScan matrix rest
    if inHazard matrix p then (p :: r.1, r.2) else (r.1, p :: r.2)

/-- `HazardPointers::retire(ptr, tid)`: push `ptr` onto the retired list, then
scan the list against the matrix. -/
def retire (matrix : HazardMatrix) (retired : List Nat) (ptr : Nat) :
    List Nat × List Nat :=
  retireScan matrix (retired ++ [ptr])

theorem retireScan_protected (matrix : HazardMatrix) (obj : Nat)
    (hprot : inHazard matrix obj = true) :
    ∀ l : List Nat, obj ∉ (retireScan matrix l).2 ∧
      (obj ∈ l → obj ∈ (retireScan matrix l).1) := by
  intro l
  induction l with
  | nil => simp [retireScan]
  | cons p rest ih =>
    rw [retireScan]
    by_cases hp : inHazard matrix p
    · simp only [hp, if_true]
      constructor
      · exact fun h => ih.1 h
      · intro hmem
        rcases List.mem_cons.1 hmem with rfl | hmem
        · exact List.mem_cons_self _ _
        · exact List.mem_cons_of_mem _ (ih.2 hmem)
    · simp only [hp, if_false]
      constructor
      · intro h
        rcases List.mem_cons.1 h with rfl | h
        · rw [hprot] at hp; exact hp rfl
        · exact ih.1 h
      · intro hmem
        rcases List.mem_cons.1 hmem with rfl | hmem
        · rw [hprot] at hp; exact absurd rfl hp
        · exact ih.2 hmem

/-- C8: for every contents of the hazard matrix and of the retired list, a
call to `HazardPointers::retire` never frees an object held in some slot of
the `maxThreads × maxHPs` matrix at scan time: such an object is not in the
deleted set and, if it was in the retired list (including the pointer just
retired), it stays there. Conversely an object is deleted only when no slot
holds it. -/
theorem C8_retire_protected_never_freed (matrix : HazardMatrix)
    (retired : List Nat) (ptr obj : Nat)
    (hprot : inHazard matrix obj = true) :
    obj ∉ (retire matrix retired ptr).2 ∧
      (obj ∈ retired ++ [ptr] → obj ∈ (retire matrix retired ptr).1) ∧
      (∀ q ∈ (retire matrix retired ptr).2, inHazard matrix q = false) := by
  refine ⟨(retireScan_protected matrix obj hprot _).1,
    (retireScan_protected matrix obj hprot _).2, ?_⟩
  intro q hq
  by_contra hc
  have hq' : inHazard matrix q = true := by
    rcases Bool.eq_false_or_eq_true (inHazard matrix q) with h | h
    · exact h
    · exact absurd h hc
  exact (retireScan_protected matrix q hq' _).1 hq

/-- Witness for C8: the matrix `[[some 5, none], [none, some 7]]` protects
object `5`; retiring `5` on top of retired list `[5, 9]` keeps both copies of
`5`, and deletes only the unprotected `9`. -/
theorem C8_witness :
    inHazard [[some 5, none], [none, some 7]] 5 = true ∧
      5 ∉ (retire [[some 5, none], [none, some 7]] [5, 9] 5).2 ∧
      (5 ∈ [5, 9] ++ [5] →
        5 ∈ (retire [[some 5, none], [none, some 7]] [5, 9] 5).1) ∧
      (∀ q ∈ (retire [[some 5, none], [none, some 7]] [5, 9] 5).2,
        inHazard [[some 5, none], [none, some 7]] q = false) :=
  ⟨by decide,
    (C8_retire_protected_never_freed [[some 5, none], [none, some 7]]
      [5, 9] 5 5 (by decide)).1,
    (C8_retire_protected_never_freed [[some 5, none], [none, some 7]]
      [5, 9] 5 5 (by decide)).2.1,
    (C8_retire_protected_never_freed [[some 5, none], [none, some 7]]
      [5, 9] 5 5 (by decide)).2.2⟩

/-! ## List helpers shared by the ring models -/

/-- `getD` after `set` at the written index. -/
theorem getD_set_self {α : Type} (l : List α) (i : Nat) (a d : α)
    (h : i < l.length) : (l.set i a).getD i d = a := by
  rw [List.getD_eq_getElem?_getD, List.getElem?_set_self',
    List.getElem?_eq_getElem h]
  simp

/-- `getD` after `set` at another index. -/
theorem getD_set_ne {α : Type} (l : List α) (i j : Nat) (a d : α)
    (hne : i ≠ j) : (l.set i a).getD j d = l.getD j d := by
  rw [List.getD_eq_getElem?_getD, List.getElem?_set_ne hne,
    ← List.getD_eq_getElem?_getD]

/-- `getD` over `replicate`. -/
theorem getD_replicate {α : Type} (n i : Nat) (a d : α) (h : i < n) :
    (List.replicate n a).getD i d = a := by
  rw [List.getD_eq_getElem?_getD, List.getElem?_replicate]
  simp [h]

/-- Sum of two values below `n`, reduced mod `n`, in closed form. -/
theorem add_mod_small (a b n : Nat) (ha : a < n) (hb : b < n) :
    (a + b) % n = if a + b < n then a + b else a + b - n := by
  split_ifs with h
  · exact Nat.mod_eq_of_lt h
  · rw [Nat.mod_eq_sub_mod (by omega)]
    exact Nat.mod_eq_of_lt (by omega)

/-- Successor under mod. -/
theorem succ_mod (a n : Nat) : (a + 1) % n = (a % n + 1) % n := by
  conv_lhs => rw [← Nat.div_add_mod a n]
  rw [add_assoc, Nat.mul_add_mod]

/-- Offsets below `n` from a common base are injective mod `n`. -/
theorem shift_mod_inj (n h : Nat) (hn : 0 < n) :
    ∀ i j, i < n → j < n → (h + i) % n = (h + j) % n → i = j := by
  intro i j hi hj heq
  have h1 : (h + i) % n = (h % n + i) % n := by
    conv_lhs => rw [Nat.add_mod]
    rw [Nat.mod_eq_of_lt hi]
  have h2 : (h + j) % n = (h % n + j) % n := by
    conv_lhs => rw [Nat.add_mod]
    rw [Nat.mod_eq_of_lt hj]
  have hh : h % n < n := Nat.mod_lt h hn
  rw [h1, add_mod_small _ _ _ hh hi, h2, add_mod_small _ _ _ hh hj] at heq
  split_ifs at heq <;> omega

/-! ## SPSC ring (`SPSC.hpp`)

```
std::atomic<uint64_t> head;  std::atomic<uint64_t> tail;
void **buffer;  const uint64_t size;
bool available() { return buffer[tail] == nullptr; }
bool empty()     { return buffer[head] == nullptr; }
bool push(T *item) {
    if(available()) {
        buffer[tail] = item;  release fence;
        tail = tail + (tail + 1 == size ? 1 - size : 1);
        return true;
    }
    return false;
}
T *pop() {
    if(empty()) return nullptr;
    T *item = buffer[head];  buffer[head] = nullptr;
    head = head + (head + 1 == size ? 1 - size : 1);
    return item;
}
```
(`MULTIPUSH` is `#undef`-ed in the source.) The constructor zeroes the buffer;
`head`/`tail` are value-initialized atomics, i.e. start at `0`. The branchless
wrap `idx + (idx + 1 == size ? 1 - size : 1)` over `uint64_t` equals
`if idx + 1 = size then 0 else idx + 1` whenever `idx < size`. -/

structure SPSCQueue where
  head : Nat
  tail : Nat
  buffer : List (Option Item)
  size : Nat
deriving DecidableEq

def SPSCQueue.new (sizePar : Nat) : SPSCQueue :=
  { head := 0, tail := 0, buffer := List.replicate sizePar none,
    size := sizePar }

def SPSCQueue.available (q : SPSCQueue) : Bool :=
  q.buffer.getD q.tail none == none

def SPSCQueue.emptyq (q : SPSCQueue) : Bool :=
  q.buffer.getD q.head none == none

def SPSCQueue.push (q : SPSCQueue) (item : Item) : Bool × SPSCQueue :=
  if q.available then
    (true, { q with buffer := q.buffer.set q.tail (some item),
                    tail := if q.tail + 1 = q.size then 0 else q.tail + 1 })
  else (false, q)

def SPSCQueue.pop (q : SPSCQueue) : Option Item × SPSCQueue :=
  if q.emptyq then (none, q)
  else
    (q.buffer.getD q.head none,
      { q with buffer := q.buffer.set q.head none,
               head := if q.head + 1 = q.size then 0 else q.head + 1 })

/-- The SPSC ring `q` represents the queue contents `xs` (front first): the
`xs.length` slots clockwise from `head` hold `xs`, every other slot is null,
and `tail` is the slot after the last element. -/
def SPSCQueue.Rep (q : SPSCQueue) (xs : List Item) : Prop :=
  0 < q.size ∧ q.buffer.length = q.size ∧ q.head < q.size ∧ q.tail < q.size ∧
  xs.length ≤ q.size ∧ q.tail = (q.head + xs.length) % q.size ∧
  (∀ i < xs.length,
    q.buffer.getD ((q.head + i) % q.size) none = some (xs.getD i 0)) ∧
  (∀ i < q.size, xs.length ≤ i →
    q.buffer.getD ((q.head + i) % q.size) none = none)

theorem spsc_rep_new (n : Nat) (hn : 0 < n) : (SPSCQueue.new n).Rep [] := by
  refine ⟨hn, by simp [SPSCQueue.new], hn, hn, by simp, by simp [SPSCQueue.new], ?_, ?_⟩
  · intro i hi
    simp at hi
  · intro i hi _
    exact getD_replicate n _ none none (Nat.mod_lt _ hn)

/-- If the wrap argument is below `n`, the branchless wrap is `mod`. -/
theorem next_mod (t n : Nat) (ht : t < n) :
    (if t + 1 = n then 0 else t + 1) = (t + 1) % n := by
  split_ifs with h
  · rw [h, Nat.mod_self]
  · exact (Nat.mod_eq_of_lt (by omega)).symm

/-- A successful SPSC push: on a non-full ring the push returns `true` and
appends the item. -/
theorem spsc_push_succ (q : SPSCQueue) (xs : List Item) (x : Item)
    (h : q.Rep xs) (hlt : xs.length < q.size) :
    (q.push x).1 = true ∧ (q.push x).2.Rep (xs ++ [x]) ∧
      (q.push x).2.size = q.size := by
  obtain ⟨hsz, hbuf, hhd, htl, hlen, htail, hocc, hempty⟩ := h
  have htailslot : q.buffer.getD q.tail none = none := by
    rw [htail]
    exact hempty xs.length hlt (le_refl _)
  have havail : q.available = true := by
    unfold SPSCQueue.available
    rw [htailslot]
    rfl
  have hpush : q.push x =
      (true, { q with buffer := q.buffer.set q.tail (some x),
                      tail := if q.tail + 1 = q.size then 0
                              else q.tail + 1 }) := by
    rw [SPSCQueue.push, if_pos havail]
  rw [hpush]
  refine ⟨rfl, ?_, rfl⟩
  unfold SPSCQueue.Rep
  dsimp only
  have hlenapp : (xs ++ [x]).length = xs.length + 1 := by simp
  rw [hlenapp]
  refine ⟨hsz, by simpa using hbuf, hhd, ?_, by omega, ?_, ?_, ?_⟩
  · rw [next_mod _ _ htl]
    exact Nat.mod_lt _ hsz
  · rw [next_mod _ _ htl, htail, Nat.mod_add_mod, Nat.add_assoc]
  · intro i hi
    rcases Nat.lt_or_ge i xs.length with hcase | hcase
    · have hne : q.tail ≠ (q.head + i) % q.size := by
        rw [htail]
        intro hc
        have := shift_mod_inj q.size q.head hsz xs.length i
          (by omega) (by omega) hc
        omega
      rw [getD_set_ne _ _ _ _ _ hne, hocc i hcase,
        List.getD_append _ _ _ _ hcase]
    · have hieq : i = xs.length := by omega
      subst hieq
      rw [← htail, getD_set_self _ _ _ _ (by omega),
        List.getD_append_right _ _ _ _ (le_refl _)]
      simp [List.getD]
  · intro i hi hge
    have hne : q.tail ≠ (q.head + i) % q.size := by
      rw [htail]
      intro hc
      have := shift_mod_inj q.size q.head hsz xs.length i
        (by omega) (by omega) hc
      omega
    rw [getD_set_ne _ _ _ _ _ hne]
    exact hempty i hi (by omega)

/-- A push on a full SPSC ring fails and leaves the state unchanged. -/
theorem spsc_push_full (q : SPSCQueue) (xs : List Item) (x : Item)
    (h : q.Rep xs) (hfull : xs.length = q.size) :
    q.push x = (false, q) := by
  obtain ⟨hsz, hbuf, hhd, htl, hlen, htail, hocc, hempty⟩ := h
  have htailslot : q.buffer.getD q.tail none = some (xs.getD 0 0) := by
    have h0 := hocc 0 (by omega)
    rw [htail, hfull, Nat.add_mod_right]
    rw [Nat.add_zero] at h0
    exact h0
  have havail : q.available = false := by
    unfold SPSCQueue.available
    rw [htailslot]
    rfl
  have hna : ¬ (q.available = true) := by rw [havail]; simp
  rw [SPSCQueue.push, if_neg hna]

/-- A pop from a non-empty SPSC ring returns the front item. -/
theorem spsc_pop_cons (q : SPSCQueue) (x : Item) (xs : List Item)
    (h : q.Rep (x :: xs)) :
    (q.pop).1 = some x ∧ (q.pop).2.Rep xs ∧ (q.pop).2.size = q.size := by
  obtain ⟨hsz, hbuf, hhd, htl, hlen, htail, hocc, hempty⟩ := h
  simp only [List.length_cons] at hlen htail
  have hheadslot : q.buffer.getD q.head none = some x := by
    have h0 := hocc 0 (by simp)
    rw [Nat.add_zero, Nat.mod_eq_of_lt hhd] at h0
    simpa [List.getD] using h0
  have hne0 : ¬ (q.emptyq = true) := by
    unfold SPSCQueue.emptyq
    rw [hheadslot]
    simp
  have hpop : q.pop =
      (q.buffer.getD q.head none,
        { q with buffer := q.buffer.set q.head none,
                 head := if q.head + 1 = q.size then 0
                         else q.head + 1 }) := by
    rw [SPSCQueue.pop, if_neg hne0]
  rw [hpop]
  refine ⟨hheadslot, ?_, rfl⟩
  unfold SPSCQueue.Rep
  dsimp only
  refine ⟨hsz, by simpa using hbuf, ?_, htl, by omega, ?_, ?_, ?_⟩
  · rw [next_mod _ _ hhd]
    exact Nat.mod_lt _ hsz
  · rw [next_mod _ _ hhd, Nat.mod_add_mod, htail]
    congr 1
    omega
  · intro i hi
    rw [next_mod _ _ hhd, Nat.mod_add_mod]
    have harith : q.head + 1 + i = q.head + (i + 1) := by omega
    rw [harith]
    have hne : q.head ≠ (q.head + (i + 1)) % q.size := by
      intro hc
      conv_lhs at hc => rw [← Nat.mod_eq_of_lt hhd, ← Nat.add_zero q.head]
      have := shift_mod_inj q.size q.head hsz 0 (i + 1)
        (by omega) (by omega) hc
      omega
    rw [getD_set_ne _ _ _ _ _ hne]
    have hx := hocc (i + 1) (by simp; omega)
    rw [hx]
    simp [List.getD]
  · intro i hi hge
    rw [next_mod _ _ hhd, Nat.mod_add_mod]
    rcases Nat.lt_or_ge (1 + i) q.size with hcase | hcase
    · have harith : q.head + 1 + i = q.head + (1 + i) := by omega
      rw [harith]
      have hne : q.head ≠ (q.head + (1 + i)) % q.size := by
        intro hc
        conv_lhs at hc => rw [← Nat.mod_eq_of_lt hhd, ← Nat.add_zero q.head]
        have := shift_mod_inj q.size q.head hsz 0 (1 + i)
          (by omega) (by omega) hc
        omega
      rw [getD_set_ne _ _ _ _ _ hne]
      exact hempty (1 + i) hcase (by simp; omega)
    · have hpos : (q.head + 1 + i) % q.size = q.head := by
        rw [show q.head + 1 + i = q.head + q.size by omega,
          Nat.add_mod_right, Nat.mod_eq_of_lt hhd]
      rw [hpos, getD_set_self _ _ _ _ (by omega)]

/-- A pop from an empty SPSC ring returns null and leaves the state
unchanged. -/
theorem spsc_pop_empty (q : SPSCQueue) (h : q.Rep []) :
    q.pop = (none, q) := by
  obtain ⟨hsz, hbuf, hhd, htl, hlen, htail, hocc, hempty⟩ := h
  have hheadslot : q.buffer.getD q.head none = none := by
    have h0 := hempty 0 hsz (by simp)
    rw [Nat.add_zero, Nat.mod_eq_of_lt hhd] at h0
    exact h0
  have hemp : q.emptyq = true := by
    unfold SPSCQueue.emptyq
    rw [hheadslot]
    rfl
  rw [SPSCQueue.pop, if_pos hemp]

/-- `getD` over a mapped `range`. -/
theorem getD_map_range {α : Type} (f : Nat → α) (n i : Nat) (d : α)
    (h : i < n) : ((List.range n).map f).getD i d = f i := by
  rw [List.getD_eq_getElem?_getD, List.getElem?_map, List.getElem?_range h]
  simp

/-! ## MTQueue ring segment (`LMTQ.hpp`), bounded instantiation

```
MTQueue(size_t size_param, int tid, uint64_t start):
    sizeRing{detail::nextPowTwo(size_param)}, mask{sizeRing - 1} {
  array = new Cell[sizeRing];
  for (uint64_t i = start; i < start + sizeRing; i++){
    array[i % sizeRing].val = nullptr;  array[i % sizeRing].idx = i;
    head = start;  tail = start;
  }
}
bool push(T *item, int tid){
  while(true){
    tailTicket = tail;                  // bounded: no isClosed check
    node = &array[tailTicket & mask];
    idx = node->idx;
    if(tailTicket == idx){
      if(CAS(tail, tailTicket, tailTicket+1)) break;   // backoff, retry
    } else if(tailTicket > idx) return false;          // bounded branch
  }
  node->val = item;  node->idx = idx + 1;  return true;
}
T *pop(int tid){
  while(true){
    headTicket = head;
    node = &array[headTicket & mask];
    idx = node->idx;
    long diff = idx - (headTicket + 1);
    if(diff == 0){
      if(CAS(head, headTicket, headTicket+1)) break;   // backoff, retry
    } else if(diff < 0){ if(isEmpty()) return nullptr; }
  }
  item = node->val;  node->idx = headTicket + sizeRing;  return item;
}
```
The public constructor uses `start = 0`. With no concurrent interference a
CAS on the just-read value succeeds, so one loop iteration decides each call;
an iteration that neither breaks nor returns repeats with unchanged state
(a spin), modelled as `none`. The signed comparison `diff < 0` reads
`idx < headTicket + 1` for the magnitudes reachable sequentially. `isEmpty()`
is `head >= tailIndex(tail)` of the segment base; the bounded instantiation
never sets the closed bit. -/

structure MTCell where
  val : Option Item
  idx : Nat
deriving DecidableEq

structure MTQueue where
  cells : List MTCell
  head : Nat
  tail : Nat
  sizeRing : Nat
deriving DecidableEq

/-- `MTQueue::MTQueue(size_param, tid)`: ring of `nextPowTwo(size_param)`
cells, cell `i` initialized to `(null, i)`, `head = tail = 0`. -/
def MTQueue.new (sizeParam : Nat) : MTQueue :=
  let n := detail.nextPowTwo sizeParam
  { cells := (List.range n).map (fun i => ⟨none, i⟩),
    head := 0, tail := 0, sizeRing := n }

/-- `MTQueue::capacity()`. -/
def MTQueue.capacity (q : MTQueue) : Nat := q.sizeRing

/-- `MTQueue::push` (bounded), one sequential call. `node` reads of the
source (`node = &array[tailTicket & mask]`) appear inline. -/
def MTQueue.push (q : MTQueue) (item : Item) : Option (Bool × MTQueue) :=
  if (q.cells.getD (q.tail &&& (q.sizeRing - 1)) ⟨none, 0⟩).idx = q.tail then
    some (true, { q with
      tail := q.tail + 1
      cells := q.cells.set (q.tail &&& (q.sizeRing - 1))
        ⟨some item,
          (q.cells.getD (q.tail &&& (q.sizeRing - 1)) ⟨none, 0⟩).idx + 1⟩ })
  else if q.tail > (q.cells.getD (q.tail &&& (q.sizeRing - 1)) ⟨none, 0⟩).idx
  then
    some (false, q)
  else
    none

/-- `MTQueue::pop`, one sequential call. `node` reads of the source
(`node = &array[headTicket & mask]`) appear inline. -/
def MTQueue.pop (q : MTQueue) : Option (Option Item × MTQueue) :=
  if (q.cells.getD (q.head &&& (q.sizeRing - 1)) ⟨none, 0⟩).idx = q.head + 1
  then
    some ((q.cells.getD (q.head &&& (q.sizeRing - 1)) ⟨none, 0⟩).val,
      { q with
        head := q.head + 1
        cells := q.cells.set (q.head &&& (q.sizeRing - 1))
          ⟨(q.cells.getD (q.head &&& (q.sizeRing - 1)) ⟨none, 0⟩).val,
            q.head + q.sizeRing⟩ })
  else if (q.cells.getD (q.head &&& (q.sizeRing - 1)) ⟨none, 0⟩).idx
      < q.head + 1 then
    if tailIndex q.tail ≤ q.head then some (none, q) else none
  else none

/-- The bounded MTQueue `q` represents queue contents `xs` (front first):
`tail − head` tickets are in flight, the cell of ticket `head + i` holds
`(xs[i], head + i + 1)`, and the cell of every unconsumed ticket in
`[tail, head + sizeRing)` still carries that ticket as its sequence index. -/
def MTQueue.Rep (q : MTQueue) (xs : List Item) : Prop :=
  2 ≤ q.sizeRing ∧ detail.isPowTwo q.sizeRing = true ∧
  q.cells.length = q.sizeRing ∧
  q.tail = q.head + xs.length ∧ xs.length ≤ q.sizeRing ∧
  (∀ i < xs.length, q.cells.getD ((q.head + i) % q.sizeRing) ⟨none, 0⟩
      = ⟨some (xs.getD i 0), q.head + i + 1⟩) ∧
  (∀ t < q.head + q.sizeRing, q.tail ≤ t →
    (q.cells.getD (t % q.sizeRing) ⟨none, 0⟩).idx = t)

/-- Under `Rep` the mask indexing is indexing mod the ring size. -/
theorem mt_mask_eq_mod (q : MTQueue) (xs : List Item) (h : q.Rep xs)
    (t : Nat) : t &&& (q.sizeRing - 1) = t % q.sizeRing := by
  obtain ⟨k, hk⟩ := detail.pow_of_isPowTwo _ h.2.1
  rw [hk, Nat.land_two_pow_sub_one_eq_mod]

theorem mt_rep_new (c : Nat) (hc : 1 ≤ c) : (MTQueue.new c).Rep [] := by
  unfold MTQueue.new MTQueue.Rep
  dsimp only
  have h2 : 2 ≤ detail.nextPowTwo c := detail.nextPowTwo_two_le c hc
  obtain ⟨j, hj⟩ := detail.nextPowTwo_pow c
  refine ⟨h2, by rw [hj]; exact detail.isPowTwo_pow j, by simp, by simp,
    by simp, by simp, ?_⟩
  intro t ht _
  rw [Nat.zero_add] at ht
  rw [Nat.mod_eq_of_lt ht, getD_map_range _ _ _ _ ht]

/-- Two distinct tickets of one ring window `[h, h + n)` land on distinct
cells. -/
theorem mt_pos_ne (n h : Nat) (hn : 0 < n) (a b : Nat) (ha1 : h ≤ a)
    (hb1 : h ≤ b) (ha2 : a < h + n) (hb2 : b < h + n) (hab : a ≠ b) :
    a % n ≠ b % n := by
  intro hc
  have h1 : h + (a - h) = a := by omega
  have h2 : h + (b - h) = b := by omega
  have := shift_mod_inj n h hn (a - h) (b - h) (by omega) (by omega)
    (by rw [h1, h2]; exact hc)
  omega

/-- A successful bounded-MTQueue push: on a non-full ring the push returns
`true` and appends the item. -/
theorem mt_push_succ (q : MTQueue) (xs : List Item) (x : Item)
    (h : q.Rep xs) (hlt : xs.length < q.sizeRing) :
    ∃ q2, q.push x = some (true, q2) ∧ q2.Rep (xs ++ [x]) ∧
      q2.sizeRing = q.sizeRing := by
  have hmask := mt_mask_eq_mod q xs h
  obtain ⟨hsz, hpow, hbuf, htail, hlen, hocc, hfree⟩ := h
  have hszpos : 0 < q.sizeRing := by omega
  have hcell : (q.cells.getD (q.tail % q.sizeRing) ⟨none, 0⟩).idx = q.tail :=
    hfree q.tail (by omega) (le_refl _)
  have hstep : q.push x = some (true, { q with
      tail := q.tail + 1
      cells := q.cells.set (q.tail % q.sizeRing) ⟨some x, q.tail + 1⟩ }) := by
    unfold MTQueue.push
    rw [hmask, hcell]
    simp
  refine ⟨_, hstep, ?_, rfl⟩
  unfold MTQueue.Rep
  dsimp only
  simp only [List.length_append, List.length_cons, List.length_nil]
  refine ⟨hsz, hpow, by simpa using hbuf, by omega, by omega, ?_, ?_⟩
  · -- occupied tickets
    intro i hi
    rcases Nat.lt_or_ge i xs.length with hcase | hcase
    · have hne : q.tail % q.sizeRing ≠ (q.head + i) % q.sizeRing := by
        apply mt_pos_ne q.sizeRing q.head hszpos _ _ (by omega) (by omega)
          (by omega) (by omega) (by omega)
      rw [getD_set_ne _ _ _ _ _ hne, hocc i hcase,
        List.getD_append _ _ _ _ hcase]
    · have hieq : i = xs.length := by omega
      subst hieq
      rw [← htail, getD_set_self _ _ _ _ (by rw [hbuf]; exact Nat.mod_lt _ hszpos),
        List.getD_append_right _ _ _ _ (le_refl _)]
      simp [List.getD]
  · -- free tickets
    intro t ht1 ht2
    have hne : q.tail % q.sizeRing ≠ t % q.sizeRing := by
      apply mt_pos_ne q.sizeRing q.head hszpos _ _ (by omega) (by omega)
        (by omega) (by omega) (by omega)
    rw [getD_set_ne _ _ _ _ _ hne]
    exact hfree t (by omega) (by omega)

/-- A bounded-MTQueue push on a full ring (of size at least 2) returns
`false` and leaves the state unchanged. -/
theorem mt_push_full (q : MTQueue) (xs : List Item) (x : Item)
    (h : q.Rep xs) (hfull : xs.length = q.sizeRing) :
    q.push x = some (false, q) := by
  have hmask := mt_mask_eq_mod q xs h
  obtain ⟨hsz, hpow, hbuf, htail, hlen, hocc, hfree⟩ := h
  have h0 := hocc 0 (by omega)
  rw [Nat.add_zero] at h0
  have hpos : q.tail % q.sizeRing = q.head % q.sizeRing := by
    rw [htail, hfull, Nat.add_mod_right]
  have hidx : (q.cells.getD (q.tail % q.sizeRing) ⟨none, 0⟩).idx
      = q.head + 1 := by
    rw [hpos, h0]
  unfold MTQueue.push
  rw [hmask, hidx]
  have hne : ¬ (q.head + 1 = q.tail) := by omega
  rw [if_neg hne]
  have hgt : q.tail > q.head + 1 := by omega
  rw [if_pos hgt]

/-- A pop from a non-empty bounded MTQueue returns the front item. -/
theorem mt_pop_cons (q : MTQueue) (x : Item) (xs : List Item)
    (h : q.Rep (x :: xs)) :
    ∃ q2, q.pop = some (some x, q2) ∧ q2.Rep xs ∧
      q2.sizeRing = q.sizeRing := by
  have hmask := mt_mask_eq_mod q _ h
  obtain ⟨hsz, hpow, hbuf, htail, hlen, hocc, hfree⟩ := h
  simp only [List.length_cons] at htail hlen
  have hszpos : 0 < q.sizeRing := by omega
  have h0 := hocc 0 (by simp)
  rw [Nat.add_zero] at h0
  simp only [List.getD_cons_zero] at h0
  have hstep : q.pop = some (some x, { q with
      head := q.head + 1
      cells := q.cells.set (q.head % q.sizeRing)
        ⟨some x, q.head + q.sizeRing⟩ }) := by
    unfold MTQueue.pop
    rw [hmask, h0]
    simp
  refine ⟨_, hstep, ?_, rfl⟩
  unfold MTQueue.Rep
  dsimp only
  refine ⟨hsz, hpow, by simpa using hbuf, by omega, by omega, ?_, ?_⟩
  · -- occupied tickets
    intro i hi
    have hne : q.head % q.sizeRing ≠ (q.head + 1 + i) % q.sizeRing := by
      apply mt_pos_ne q.sizeRing q.head hszpos _ _ (by omega) (by omega)
        (by omega) (by omega) (by omega)
    rw [getD_set_ne _ _ _ _ _ hne]
    have hx := hocc (i + 1) (by simp; omega)
    rw [show q.head + 1 + i = q.head + (i + 1) from by omega, hx]
    simp [List.getD]
  · -- free tickets
    intro t ht1 ht2
    rcases Nat.lt_or_ge t (q.head + q.sizeRing) with hcase | hcase
    · have hne : q.head % q.sizeRing ≠ t % q.sizeRing := by
        apply mt_pos_ne q.sizeRing q.head hszpos _ _ (by omega) (by omega)
          (by omega) (by omega) (by omega)
      rw [getD_set_ne _ _ _ _ _ hne]
      exact hfree t (by omega) (by omega)
    · have hteq : t = q.head + q.sizeRing := by omega
      subst hteq
      rw [Nat.add_mod_right,
        getD_set_self _ _ _ _ (by rw [hbuf]; exact Nat.mod_lt _ hszpos)]

/-- A pop from an empty bounded MTQueue returns null and leaves the state
unchanged. -/
theorem mt_pop_empty (q : MTQueue) (h : q.Rep []) :
    q.pop = some (none, q) := by
  have hmask := mt_mask_eq_mod q [] h
  obtain ⟨hsz, hpow, hbuf, htail, hlen, hocc, hfree⟩ := h
  simp only [List.length_nil, Nat.add_zero] at htail
  have hszpos : 0 < q.sizeRing := by omega
  have h0 : (q.cells.getD (q.head % q.sizeRing) ⟨none, 0⟩).idx = q.head :=
    hfree q.head (by omega) (by omega)
  unfold MTQueue.pop
  rw [hmask, h0]
  have hne : ¬ (q.head = q.head + 1) := by omega
  rw [if_neg hne, if_pos (by omega : q.head < q.head + 1),
    if_pos ?empty]
  case empty =>
    rw [tailIndex_eq_mod, htail]
    exact Nat.mod_le _ _

/-! ## Sequential drivers: push a list of items, then pop `n` times. -/

def MTQueue.pushAll (q : MTQueue) : List Item → Option (List Bool × MTQueue)
  | [] => some ([], q)
  | x :: rest =>
    match q.push x with
    | none => none
    | some (b, q1) =>
      match q1.pushAll rest with
      | none => none
      | some (bs, q2) => some (b :: bs, q2)

def MTQueue.popN (q : MTQueue) : Nat → Option (List (Option Item) × MTQueue)
  | 0 => some ([], q)
  | n + 1 =>
    match q.pop with
    | none => none
    | some (r, q1) =>
      match q1.popN n with
      | none => none
      | some (rs, q2) => some (r :: rs, q2)

def SPSCQueue.pushAll (q : SPSCQueue) : List Item → List Bool × SPSCQueue
  | [] => ([], q)
  | x :: rest =>
    let r := q.push x
    let r2 := r.2.pushAll rest
    (r.1 :: r2.1, r2.2)

def SPSCQueue.popN (q : SPSCQueue) : Nat → List (Option Item) × SPSCQueue
  | 0 => ([], q)
  | n + 1 =>
    let r := q.pop
    let r2 := r.2.popN n
    (r.1 :: r2.1, r2.2)

theorem mt_pushAll_rep : ∀ (xs : List Item) (q : MTQueue) (ys : List Item),
    q.Rep ys → ys.length + xs.length ≤ q.sizeRing →
    ∃ q2, q.pushAll xs = some (List.replicate xs.length true, q2) ∧
      q2.Rep (ys ++ xs) ∧ q2.sizeRing = q.sizeRing := by
  intro xs
  induction xs with
  | nil =>
    intro q ys h _
    exact ⟨q, by simp [MTQueue.pushAll], by simpa using h, rfl⟩
  | cons x rest ih =>
    intro q ys h hlen
    simp only [List.length_cons] at hlen
    obtain ⟨q1, hpush, hrep1, hsz1⟩ := mt_push_succ q ys x h (by omega)
    obtain ⟨q2, hrest, hrep2, hsz2⟩ := ih q1 (ys ++ [x]) hrep1
      (by simp only [List.length_append, List.length_cons, List.length_nil]
          omega)
    refine ⟨q2, ?_, by simpa using hrep2, by omega⟩
    simp only [MTQueue.pushAll, hpush, hrest, List.length_cons]
    rfl

theorem mt_popN_rep : ∀ (xs : List Item) (q : MTQueue), q.Rep xs →
    ∃ q2, q.popN xs.length = some (xs.map some, q2) ∧ q2.Rep [] := by
  intro xs
  induction xs with
  | nil =>
    intro q h
    exact ⟨q, by simp [MTQueue.popN], h⟩
  | cons x rest ih =>
    intro q h
    obtain ⟨q1, hpop, hrep1, hsz1⟩ := mt_pop_cons q x rest h
    obtain ⟨q2, hrest, hrep2⟩ := ih q1 hrep1
    refine ⟨q2, ?_, hrep2⟩
    simp only [List.length_cons, MTQueue.popN, hpop, hrest, List.map_cons]

theorem spsc_pushAll_rep : ∀ (xs : List Item) (q : SPSCQueue)
    (ys : List Item), q.Rep ys → ys.length + xs.length ≤ q.size →
    (q.pushAll xs).1 = List.replicate xs.length true ∧
      (q.pushAll xs).2.Rep (ys ++ xs) ∧ (q.pushAll xs).2.size = q.size := by
  intro xs
  induction xs with
  | nil =>
    intro q ys h _
    exact ⟨by simp [SPSCQueue.pushAll], by simpa using h, rfl⟩
  | cons x rest ih =>
    intro q ys h hlen
    simp only [List.length_cons] at hlen
    obtain ⟨hb, hrep1, hsz1⟩ := spsc_push_succ q ys x h (by omega)
    obtain ⟨hbs, hrep2, hsz2⟩ := ih (q.push x).2 (ys ++ [x]) hrep1
      (by simp only [List.length_append, List.length_cons, List.length_nil]
          omega)
    rw [SPSCQueue.pushAll]
    refine ⟨?_, by simpa using hrep2, by rw [hsz2, hsz1]⟩
    dsimp only
    rw [hb, hbs, List.length_cons]
    rfl

theorem spsc_popN_rep : ∀ (xs : List Item) (q : SPSCQueue), q.Rep xs →
    (q.popN xs.length).1 = xs.map some ∧ (q.popN xs.length).2.Rep [] := by
  intro xs
  induction xs with
  | nil =>
    intro q h
    exact ⟨by simp [SPSCQueue.popN], h⟩
  | cons x rest ih =>
    intro q h
    obtain ⟨hv, hrep1, hsz1⟩ := spsc_pop_cons q x rest h
    obtain ⟨hvs, hrep2⟩ := ih (q.pop).2 hrep1
    rw [List.length_cons, SPSCQueue.popN]
    refine ⟨?_, hrep2⟩
    dsimp only
    rw [hv, hvs, List.map_cons]

/-- C1: starting from an empty queue with no concurrent operations, pushing
`N` distinct non-null pointers and then performing `N` pops returns exactly
those `N` pointers in push order, with `N` at most the effective capacity.
Proved for the two ring implementations the spec derives this law from: the
standalone bounded `MTQueue` (effective capacity `(MTQueue.new cap).sizeRing`)
and the `SPSCQueue` ring (capacity `cap`). -/
theorem C1_push_pop_roundtrip_in_order (cap : Nat) (xs : List Item)
    (hcap : 1 ≤ cap) (hdistinct : xs.Nodup)
    (hMT : xs.length ≤ (MTQueue.new cap).sizeRing)
    (hSP : xs.length ≤ cap) :
    (∃ q1 q2, (MTQueue.new cap).pushAll xs
        = some (List.replicate xs.length true, q1) ∧
      q1.popN xs.length = some (xs.map some, q2)) ∧
    (((SPSCQueue.new cap).pushAll xs).1 = List.replicate xs.length true ∧
      ((((SPSCQueue.new cap).pushAll xs).2).popN xs.length).1
        = xs.map some) := by
  constructor
  · obtain ⟨q1, hpa, hrep, hsz⟩ := mt_pushAll_rep xs (MTQueue.new cap) []
      (mt_rep_new cap hcap) (by simpa using hMT)
    rw [List.nil_append] at hrep
    obtain ⟨q2, hpn, hrep2⟩ := mt_popN_rep xs q1 hrep
    exact ⟨q1, q2, hpa, hpn⟩
  · obtain ⟨hpa, hrep, hsz⟩ := spsc_pushAll_rep xs (SPSCQueue.new cap) []
      (spsc_rep_new cap (by omega)) (by simpa using hSP)
    rw [List.nil_append] at hrep
    obtain ⟨hpn, hrep2⟩ := spsc_popN_rep xs _ hrep
    exact ⟨hpa, hpn⟩

/-- Witness for C1 at capacity 2 and the two distinct items `[3, 5]`. -/
theorem C1_witness : 1 ≤ 2 ∧ ([3, 5] : List Item).Nodup ∧
    ([3, 5] : List Item).length ≤ (MTQueue.new 2).sizeRing ∧
    ([3, 5] : List Item).length ≤ 2 ∧
    ((∃ q1 q2, (MTQueue.new 2).pushAll [3, 5]
        = some (List.replicate 2 true, q1) ∧
      q1.popN 2 = some ([3, 5].map some, q2)) ∧
    (((SPSCQueue.new 2).pushAll [3, 5]).1 = List.replicate 2 true ∧
      ((((SPSCQueue.new 2).pushAll [3, 5]).2).popN 2).1
        = [3, 5].map some)) :=
  ⟨by decide, by decide, by decide, by decide,
    C1_push_pop_roundtrip_in_order 2 [3, 5] (by decide) (by decide)
      (by decide) (by decide)⟩

/-- C2 counterexample: a bounded `MTQueue` constructed with capacity `C = 2`
accepts a third push. The constructor applies `nextPowTwo` unconditionally,
so the ring allocated for requested capacity 2 has 4 cells, and the
`(C+1)`-th push returns `true`, not `false` as the claim states. -/
theorem C2_counterexample_requested_capacity :
    ((MTQueue.new 2).pushAll [7, 8, 9]).map (fun r => r.1)
        = some [true, true, true] ∧
      ¬ ((MTQueue.new 2).pushAll [7, 8, 9]).map (fun r => r.1)
        = some [true, true, false] := by
  constructor
  · decide
  · decide

/-- C2 (amended): for every bounded `MTQueue` constructed with requested
capacity `cap ≥ 1` and operated sequentially from empty, with `S` the
effective capacity (the ring size reported by `capacity()`, i.e.
`nextPowTwo cap`): the first `S` pushes succeed, the `(S+1)`-th push without
any pop returns `false` leaving the queue unchanged, and after a single pop
the next push succeeds. -/
theorem C2_bounded_overflow_effective_capacity (cap : Nat) (xs : List Item)
    (y z : Item) (hcap : 1 ≤ cap)
    (hlen : xs.length = (MTQueue.new cap).capacity) :
    ∃ q1 v q2 q3, (MTQueue.new cap).pushAll xs
        = some (List.replicate xs.length true, q1) ∧
      q1.push y = some (false, q1) ∧
      q1.pop = some (some v, q2) ∧
      q2.push z = some (true, q3) := by
  obtain ⟨q1, hpa, hrep, hsz⟩ := mt_pushAll_rep xs (MTQueue.new cap) []
    (mt_rep_new cap hcap) (by simp [hlen, MTQueue.capacity])
  rw [List.nil_append] at hrep
  have hfull : xs.length = q1.sizeRing := by
    rw [hlen, MTQueue.capacity, hsz]
  have hpf := mt_push_full q1 xs y hrep hfull
  have hsz2 : 2 ≤ q1.sizeRing := hrep.1
  cases xs with
  | nil => simp at hfull; omega
  | cons x rest =>
    obtain ⟨q2, hpop, hrep2, hszpop⟩ := mt_pop_cons q1 x rest hrep
    obtain ⟨q3, hpush3, _, _⟩ := mt_push_succ q2 rest z hrep2
      (by simp only [List.length_cons] at hfull; omega)
    exact ⟨q1, x, q2, q3, hpa, hpf, hpop, hpush3⟩

/-- Witness for C2 (amended) at requested capacity 1: the effective capacity
is 2, both pushes of `[4, 6]` succeed, the third push fails, and after one
pop a push succeeds again. -/
theorem C2_witness : 1 ≤ 1 ∧
    ([4, 6] : List Item).length = (MTQueue.new 1).capacity ∧
    (∃ q1 v q2 q3, (MTQueue.new 1).pushAll [4, 6]
        = some (List.replicate 2 true, q1) ∧
      q1.push 9 = some (false, q1) ∧
      q1.pop = some (some v, q2) ∧
      q2.push 11 = some (true, q3)) :=
  ⟨by decide, by decide,
    C2_bounded_overflow_effective_capacity 1 [4, 6] 9 11 (by decide)
      (by decide)⟩

/-- C10: a pop on a (well-formed) standalone bounded `MTQueue` that returns
null leaves the entire queue state unchanged: head, tail and every cell are
exactly as before the call. -/
theorem C10_failed_pop_leaves_state (q : MTQueue) (xs : List Item)
    (h : q.Rep xs) (q2 : MTQueue) (hpop : q.pop = some (none, q2)) :
    q2 = q := by
  cases xs with
  | nil =>
    have he := mt_pop_empty q h
    rw [he] at hpop
    simp only [Option.some.injEq, Prod.mk.injEq] at hpop
    exact hpop.2.symm
  | cons x rest =>
    obtain ⟨q1, hpop1, _, _⟩ := mt_pop_cons q x rest h
    rw [hpop1] at hpop
    simp at hpop

/-- Witness for C10 on the empty bounded queue of requested capacity 1. -/
theorem C10_witness : (MTQueue.new 1).Rep [] ∧
    (MTQueue.new 1).pop = some (none, MTQueue.new 1) ∧
    MTQueue.new 1 = MTQueue.new 1 :=
  ⟨mt_rep_new 1 (by decide), by decide,
    C10_failed_pop_leaves_state (MTQueue.new 1) [] (mt_rep_new 1 (by decide))
      (MTQueue.new 1) (by decide)⟩

/-- The ring-size initializer used by `CRQueue` and `PRQueue`:
`isPowTwo(n) ? n : nextPowTwo(n)`. -/
def guardedRingSize (n : Nat) : Nat :=
  if detail.isPowTwo n then n else detail.nextPowTwo n

/-- The ring-size initializer of `BoundedItemAdapter`:
`SegmentLength > 1 && isPowTwo(SegmentLength) ? SegmentLength :
nextPowTwo(SegmentLength)` — note the extra `> 1` conjunct, which sends
`n = 1` to `nextPowTwo 1 = 2`. -/
def biaRingSize (n : Nat) : Nat :=
  if 1 < n ∧ detail.isPowTwo n = true then n else detail.nextPowTwo n

/-- C6 counterexample: `MTQueue` constructed with the power-of-two capacity 4
allocates and reports a ring of 8 cells, not 4: `nextPowTwo` maps a power of
two to the NEXT power, and `MTQueue` applies it unconditionally. -/
theorem C6_counterexample_pow2_capacity :
    (MTQueue.new 4).capacity = 8 ∧ detail.isPowTwo 4 = true ∧
      ¬ (MTQueue.new 4).capacity = 4 := by
  refine ⟨by decide, by decide, by decide⟩

/-- C6 (amended): for requested capacity `n > 0` (`DISABLE_POW2` not set):
the ring size allocated and reported by `MTQueue` is `nextPowTwo n`, which is
the smallest power of two ≥ `n` when `n` is NOT a power of two, but equals
`2 * n` when `n` is a power of two; the segments that guard the call with
`isPowTwo(n) ? n : nextPowTwo(n)` (`CRQueue`, `PRQueue`) allocate the
smallest power of two ≥ `n` for every `n > 0`; `BoundedItemAdapter` adds a
`> 1` conjunct to that guard, so it agrees with them at every `n > 1` but
allocates 2 (not 1) at `n = 1`. -/
theorem C6_effective_size_amended (n : Nat) (hn : 0 < n) :
    (MTQueue.new n).capacity = detail.nextPowTwo n ∧
    (detail.isPowTwo n = false →
      n ≤ detail.nextPowTwo n ∧ (∃ j, detail.nextPowTwo n = 2 ^ j) ∧
        ∀ i, n ≤ 2 ^ i → detail.nextPowTwo n ≤ 2 ^ i) ∧
    (∀ k, n = 2 ^ k → detail.nextPowTwo n = 2 * n) ∧
    (n ≤ guardedRingSize n ∧ (∃ j, guardedRingSize n = 2 ^ j) ∧
      ∀ i, n ≤ 2 ^ i → guardedRingSize n ≤ 2 ^ i) ∧
    (1 < n → biaRingSize n = guardedRingSize n) ∧
    biaRingSize 1 = 2 := by
  refine ⟨rfl, ?_, ?_, ?_, ?_, by decide⟩
  · intro hnp
    exact detail.nextPowTwo_of_not_pow n hn hnp
  · intro k hk
    subst hk
    rw [detail.nextPowTwo_of_pow]
    ring
  · unfold guardedRingSize
    cases hp : detail.isPowTwo n with
    | true =>
      simp only [if_true]
      exact ⟨le_refl n, detail.pow_of_isPowTwo n hp, fun i hi => hi⟩
    | false =>
      simp only [Bool.false_eq_true, if_false]
      exact detail.nextPowTwo_of_not_pow n hn hp
  · intro h1
    unfold biaRingSize guardedRingSize
    cases hp : detail.isPowTwo n with
    | true => rw [if_pos ⟨h1, rfl⟩, if_pos rfl]
    | false => simp

/-- Witness for C6 (amended) at `n = 3`. -/
theorem C6_witness : 0 < 3 ∧
    ((MTQueue.new 3).capacity = detail.nextPowTwo 3 ∧
    (detail.isPowTwo 3 = false →
      3 ≤ detail.nextPowTwo 3 ∧ (∃ j, detail.nextPowTwo 3 = 2 ^ j) ∧
        ∀ i, 3 ≤ 2 ^ i → detail.nextPowTwo 3 ≤ 2 ^ i) ∧
    (∀ k, 3 = 2 ^ k → detail.nextPowTwo 3 = 2 * 3) ∧
    (3 ≤ guardedRingSize 3 ∧ (∃ j, guardedRingSize 3 = 2 ^ j) ∧
      ∀ i, 3 ≤ 2 ^ i → guardedRingSize 3 ≤ 2 ^ i) ∧
    (1 < 3 → biaRingSize 3 = guardedRingSize 3) ∧
    biaRingSize 1 = 2) :=
  ⟨by decide, C6_effective_size_amended 3 (by decide)⟩

/-! ## CRQueue ring segment, Variant-C (`LCRQ.hpp`)

Sequential embedding of the active `CRQueue` (double-word CAS on the cell
pair). A cell is `(val, idx)` with the unsafe flag in bit 63 of `idx`; the
segment `tail` carries the closed flag in bit 63. Default build: padded cells
(`sizeof(Cell) = CACHE_LINE = 64`), so the `CacheRemap` instance is
`CacheRemap<64, 64>` and the cell of ticket `t` is
`array[remap[t & mask]]`. `waitOnCluster` only spins and touches the NUMA
`cluster` word, which the model elides. A sequential `CAS2` on the values
just read always succeeds. One iteration of each `while(true)` loop is a
step function; the loops run on fuel. The inner dequeue loop terminates
sequentially (the spin counter `r` eventually exceeds `4*1024` with the
state unchanged, forcing the epoch-advance transition), so it is a plain
function of the state. -/

structure CRQ where
  cells : List MTCell
  head : Nat
  tail : Nat
  size : Nat
deriving DecidableEq

/-- Cell position of a ticket: `remap[t & mask]` with the padded-cell remap
`CacheRemap<64, 64>`. -/
def crqPos (size t : Nat) : Nat :=
  cacheRemapIndex 64 64 size (t &&& (size - 1))

/-- `CRQueue::CRQueue(size_par, tid, start)`: ring size rounded up only when
not a power of two; the init loop writes `(null, i)` into
`array[remap[i & mask]]` for `i in [start, start + sizeRing)`;
`head = tail = start`. (`new Cell[n]` value-initializes; every cell is then
overwritten by the loop.) -/
def CRQ.new (sizePar start : Nat) : CRQ :=
  let n := if detail.isPowTwo sizePar then sizePar else detail.nextPowTwo sizePar
  { cells := (List.range' start n).foldl
      (fun cs i => cs.set (crqPos n i) ⟨none, i⟩)
      (List.replicate n ⟨none, 0⟩),
    head := start, tail := start, size := n }

/-- `isClosed(tail.load())` of the segment base, on a CRQ segment. -/
def CRQ.closed (s : CRQ) : Bool := isClosed s.tail

/-- `closeSegment(true)`: `tail.fetch_or(1ull << 63)`. -/
def CRQ.closeForce (s : CRQ) : CRQ := { s with tail := s.tail ||| 2 ^ 63 }

/-- `getNextSegmentStartIndex() = tailIndex(tail) - 1`. -/
def CRQ.nextSegmentStartIndex (s : CRQ) : Nat := tailIndex s.tail - 1

/-- `fixState()`: a sequential run does at most one CAS: if `head > tail`
(raw words), `tail` is set to `head`. -/
def CRQ.fixState (s : CRQ) : CRQ :=
  if s.head > s.tail then { s with tail := s.head } else s

/-- One iteration of the `CRQueue::push` loop. First component: `some b`
means return `b`; `none` means loop again. The FAA bumps `tail` even when
the segment is closed. -/
def crqPushStep (s : CRQ) (item : Item) : Option Bool × CRQ :=
  let t := s.tail
  let s1 : CRQ := { s with tail := s.tail + 1 }
  if isClosed t then (some false, s1)
  else
    let cell := s1.cells.getD (crqPos s1.size t) ⟨none, 0⟩
    if cell.val = none ∧ nodeIndex cell.idx ≤ t ∧
        (nodeUnsafe cell.idx = 0 ∨ s1.head < t) then
      -- CAS2 (null, idx) -> (item, t): sequentially successful
      (some true,
        { s1 with cells := s1.cells.set (crqPos s1.size t) ⟨some item, t⟩ })
    else
      if t ≥ s1.head + s1.size then
        -- closeSegment(t, try_close++ > TRY_CLOSE_CRQ): the un-forced CAS
        -- expects tail = t + 1, which holds sequentially, so it succeeds
        (some false, { s1 with tail := (t + 1) ||| 2 ^ 63 })
      else
        (none, s1)

/-- `CRQueue::push` on fuel. -/
def crqPush : Nat → CRQ → Item → Option (Bool × CRQ)
  | 0, _, _ => none
  | fuel + 1, s, item =>
    match crqPushStep s item with
    | (some b, s1) => some (b, s1)
    | (none, s1) => crqPush fuel s1 item

/-- One iteration of the `CRQueue::pop` outer loop (ticket FAA, inner cell
loop, empty check). First component: `some r` means return `r`; `none`
means loop again. -/
def crqPopStep (s : CRQ) : Option (Option Item) × CRQ :=
  let h := s.head
  let s1 : CRQ := { s with head := s.head + 1 }
  let pos := crqPos s1.size h
  let cell := s1.cells.getD pos ⟨none, 0⟩
  -- inner loop: (some v, _) = returned v; (none, _) = broke out
  let inner : Option (Option Item) × CRQ :=
    if nodeIndex cell.idx > h then (none, s1)
    else if cell.val ≠ none then
      if nodeIndex cell.idx = h then
        -- dequeue transition: CAS2 (val, idx) -> (null, unsafe|(h+size))
        (some cell.val,
          { s1 with cells :=
              s1.cells.set pos ⟨none, nodeUnsafe cell.idx ||| (h + s1.size)⟩ })
      else
        -- late cell: CAS2 (val, idx) -> (val, set_unsafe(idx)), then break
        (none,
          { s1 with cells :=
              s1.cells.set pos ⟨cell.val, setUnsafe (nodeIndex cell.idx)⟩ })
    else
      -- empty cell: advance its epoch past this consumer and break
      (none,
        { s1 with cells :=
            s1.cells.set pos ⟨none, nodeUnsafe cell.idx ||| (h + s1.size)⟩ })
  match inner with
  | (some v, s2) => (some v, s2)
  | (none, s2) =>
    if tailIndex s2.tail ≤ h + 1 then (some none, s2.fixState)
    else (none, s2)

/-- `CRQueue::pop` on fuel. -/
def crqPop : Nat → CRQ → Option (Option Item × CRQ)
  | 0, _ => none
  | fuel + 1, s =>
    match crqPopStep s with
    | (some r, s1) => some (r, s1)
    | (none, s1) => crqPop fuel s1

/-! ## Bounded-segment adapter (`BoundedSegmentAdapter`, over CRQ segments)

Sequential embedding. The adapter state keeps the live chain of segments
from the head pointer; `tailIdx` is the position of the adapter's tail
pointer in that chain. With no interference every pointer CAS (advance
tail, link `next`, advance head) succeeds, and the hazard-pointer
protections are no-ops, so retiring the old head drops it from the chain.
`MAX_SEGMENTS` is the `segmentSize` constructor argument (default 4). -/

def crqDefault : CRQ := { cells := [], head := 0, tail := 0, size := 0 }

structure BSA where
  segs : List CRQ
  tailIdx : Nat
  segmentTail : Nat
  segmentHead : Nat
  maxSegments : Nat
  sizeRing : Nat
deriving DecidableEq

/-- `BoundedSegmentAdapter(size_par, threads, segmentSize)`:
`sizeRing = (isPowTwo(size_par) ? size_par : nextPowTwo(size_par)) / segmentSize`,
one sentinel segment, both segment counters 0. -/
def BSA.new (sizePar segmentSize : Nat) : BSA :=
  let n := (if detail.isPowTwo sizePar then sizePar
            else detail.nextPowTwo sizePar) / segmentSize
  { segs := [CRQ.new n 0], tailIdx := 0, segmentTail := 0, segmentHead := 0,
    maxSegments := segmentSize, sizeRing := n }

/-- `BoundedSegmentAdapter::push`, sequential, on fuel for the outer loop and
for the segment pushes. -/
def bsaPush : Nat → Nat → BSA → Item → Option (Bool × BSA)
  | 0, _, _, _ => none
  | fuel + 1, crqFuel, st, x =>
    -- lnext != null: advance the tail pointer (the CAS succeeds) and retry
    if st.tailIdx + 1 < st.segs.length then
      bsaPush fuel crqFuel { st with tailIdx := st.tailIdx + 1 } x
    else
      match crqPush crqFuel (st.segs.getD st.tailIdx crqDefault) x with
      | none => none
      | some (true, lt2) =>
        some (true, { st with segs := st.segs.set st.tailIdx lt2 })
      | some (false, lt2) =>
        let st1 : BSA := { st with segs := st.segs.set st.tailIdx lt2 }
        if st1.segmentTail - st1.segmentHead ≥ st1.maxSegments then
          some (false, st1)
        else
          match crqPush crqFuel (CRQ.new st1.sizeRing 0) x with
          | none => none
          | some (_, ns) =>
            -- link CAS succeeds; re-read the counters (unchanged
            -- sequentially, so the force-close branch is dead); then
            -- `segmentTail += 1` and the tail-pointer CAS advances
            let st2 : BSA := { st1 with segs := st1.segs ++ [ns] }
            if st2.segmentTail - st2.segmentHead ≥ st2.maxSegments then
              some (true, { st2 with
                segs := st2.segs.set st2.tailIdx
                  ((st2.segs.getD st2.tailIdx crqDefault).closeForce)
                tailIdx := st2.segs.length - 1
                segmentTail := st2.segmentTail + 1 })
            else
              some (true, { st2 with
                tailIdx := st2.segs.length - 1
                segmentTail := st2.segmentTail + 1 })

/-- `BoundedSegmentAdapter::pop`, sequential. When the drained head segment
has a successor, the head CAS advances, the old head is retired (dropped
from the live chain) and `segmentHead += 1`. -/
def bsaPop : Nat → Nat → BSA → Option (Option Item × BSA)
  | 0, _, _ => none
  | fuel + 1, crqFuel, st =>
    match crqPop crqFuel (st.segs.getD 0 crqDefault) with
    | none => none
    | some (some v, h1) =>
      some (some v, { st with segs := st.segs.set 0 h1 })
    | some (none, h1) =>
      let st1 : BSA := { st with segs := st.segs.set 0 h1 }
      if st1.segs.length ≤ 1 then
        some (none, st1)
      else
        match crqPop crqFuel (st1.segs.getD 0 crqDefault) with
        | none => none
        | some (some v, h2) =>
          some (some v, { st1 with segs := st1.segs.set 0 h2 })
        | some (none, h2) =>
          bsaPop fuel crqFuel { st1 with
            segs := (st1.segs.set 0 h2).drop 1
            tailIdx := st1.tailIdx - 1
            segmentHead := st1.segmentHead + 1 }

/-- Driver: sequential pushes of a list through the bounded-segment
adapter. -/
def bsaPushList (fuel crqFuel : Nat) (st : BSA) :
    List Item → Option (List Bool × BSA)
  | [] => some ([], st)
  | x :: rest =>
    match bsaPush fuel crqFuel st x with
    | none => none
    | some (b, st1) =>
      match bsaPushList fuel crqFuel st1 rest with
      | none => none
      | some (bs, st2) => some (b :: bs, st2)

/-- Behaviour of a sequential `BoundedSegmentAdapter::push` call on the
segment bookkeeping: the failing return requires
`segmentTail - segmentHead ≥ maxSegments` and links nothing; a link grows
the chain by one, increments `segmentTail` by one, returns `true`, and is
taken only while `segmentTail - segmentHead < maxSegments`. -/
theorem bsa_push_spec : ∀ (fuel crqFuel : Nat) (st : BSA) (x : Item)
    (b : Bool) (st' : BSA), bsaPush fuel crqFuel st x = some (b, st') →
    st'.segmentHead = st.segmentHead ∧ st'.maxSegments = st.maxSegments ∧
    st'.sizeRing = st.sizeRing ∧
    ((st'.segs.length = st.segs.length ∧ st'.segmentTail = st.segmentTail) ∨
      (b = true ∧ st'.segs.length = st.segs.length + 1 ∧
        st'.segmentTail = st.segmentTail + 1 ∧
        st.segmentTail - st.segmentHead < st.maxSegments)) ∧
    (b = false → st.maxSegments ≤ st.segmentTail - st.segmentHead ∧
      st'.segs.length = st.segs.length ∧
      st'.segmentTail = st.segmentTail) := by
  intro fuel
  induction fuel with
  | zero =>
    intro cf st x b st' hp
    simp [bsaPush] at hp
  | succ n ih =>
    intro cf st x b st' hp
    rw [bsaPush] at hp
    split at hp
    · -- tail-pointer advance, recurse on the same counters
      exact ih cf { st with tailIdx := st.tailIdx + 1 } x b st' hp
    · split at hp
      · -- crqPush returned none
        exact absurd hp (by simp)
      · -- segment push succeeded
        simp only [Option.some.injEq, Prod.mk.injEq] at hp
        obtain ⟨hb, hst⟩ := hp
        subst hst
        refine ⟨rfl, rfl, rfl, Or.inl ⟨by simp, rfl⟩, ?_⟩
        intro hbf
        rw [← hb] at hbf
        simp at hbf
      · -- segment push failed: full-check, then link
        dsimp only at hp
        split at hp
        · -- counters full: return false unchanged
          simp only [Option.some.injEq, Prod.mk.injEq] at hp
          obtain ⟨hb, hst⟩ := hp
          subst hst
          refine ⟨rfl, rfl, rfl, Or.inl ⟨by simp, rfl⟩, ?_⟩
          intro _
          refine ⟨by omega, by simp, rfl⟩
        · split at hp
          · -- fresh-segment push returned none
            exact absurd hp (by simp)
          · -- linked; the post-link recheck re-reads the unchanged
            -- counters, so only the no-close branch is live
            simp only [Option.some.injEq, Prod.mk.injEq] at hp
            obtain ⟨hb, hst⟩ := hp
            subst hst
            refine ⟨rfl, rfl, rfl,
              Or.inr ⟨hb.symm, by simp, by simp, by omega⟩, ?_⟩
            intro hbf
            rw [← hb] at hbf
            simp at hbf

/-- Behaviour of a sequential `BoundedSegmentAdapter::pop` call on the
segment bookkeeping: each retired segment is dropped from the live chain
and counted once in `segmentHead`; at least one segment always remains. -/
theorem bsa_pop_spec : ∀ (fuel crqFuel : Nat) (st : BSA) (r : Option Item)
    (st' : BSA), bsaPop fuel crqFuel st = some (r, st') →
    st'.maxSegments = st.maxSegments ∧ st'.segmentTail = st.segmentTail ∧
    ∃ d, st'.segmentHead = st.segmentHead + d ∧
      st.segs.length = st'.segs.length + d ∧
      (0 < st.segs.length → 0 < st'.segs.length) := by
  intro fuel
  induction fuel with
  | zero =>
    intro cf st r st' hp
    simp [bsaPop] at hp
  | succ n ih =>
    intro cf st r st' hp
    rw [bsaPop] at hp
    split at hp
    · exact absurd hp (by simp)
    · -- head segment returned an item
      simp only [Option.some.injEq, Prod.mk.injEq] at hp
      obtain ⟨hr, hst⟩ := hp
      subst hst
      exact ⟨rfl, rfl, 0, by simp, by simp, fun h => by simpa using h⟩
    · -- head segment empty
      dsimp only at hp
      split at hp
      · -- no next segment: return null
        simp only [Option.some.injEq, Prod.mk.injEq] at hp
        obtain ⟨hr, hst⟩ := hp
        subst hst
        exact ⟨rfl, rfl, 0, by simp, by simp, fun h => by simpa using h⟩
      · rename_i hguard
        simp only [List.length_set] at hguard
        split at hp
        · exact absurd hp (by simp)
        · -- second pop got an item
          simp only [Option.some.injEq, Prod.mk.injEq] at hp
          obtain ⟨hr, hst⟩ := hp
          subst hst
          exact ⟨rfl, rfl, 0, by simp, by simp, fun h => by simpa using h⟩
        · -- still empty: retire the head segment and loop
          have h := ih cf _ r st' hp
          obtain ⟨hmax, htl, d, hhd, hlenrec, hpos⟩ := h
          simp only [List.length_drop, List.length_set] at hlenrec hpos
          refine ⟨hmax, htl, d + 1, by rw [hhd]; dsimp only; omega,
            by omega, ?_⟩
          intro _
          apply hpos
          omega

/-- Invariant of the bounded-segment adapter relating the live chain to the
segment counters: the chain holds `segmentTail - segmentHead + 1` segments,
never more than `maxSegments + 1`. -/
def BSA.SegInv (st : BSA) : Prop :=
  st.segmentHead ≤ st.segmentTail ∧
  st.segs.length = st.segmentTail - st.segmentHead + 1 ∧
  st.segs.length ≤ st.maxSegments + 1

instance (st : BSA) : Decidable st.SegInv :=
  decidable_of_iff (st.segmentHead ≤ st.segmentTail ∧
    st.segs.length = st.segmentTail - st.segmentHead + 1 ∧
    st.segs.length ≤ st.maxSegments + 1) Iff.rfl

/-- C3 counterexample: `BoundedSegmentAdapter` with `K = maxSegments = 4`
and 1-cell segments (requested size 4). The first 4 sequential pushes leave
`segTailIdx - segHeadIdx = 3` with 4 live segments; the 5th push finds the
tail segment full and LINKS although `segTailIdx - segHeadIdx + 1 = 4` is
not `< K`, reaching 5 live segments; so the claim's link guard
(`segTailIdx - segHeadIdx + 1 < K`) and its bound (`live ≤ K`) are both
violated. The 6th push returns `false`. -/
theorem C3_counterexample_live_segments :
    ((bsaPushList 3 3 (BSA.new 4 4) [1, 2, 3, 4]).map
        (fun r => (r.1, r.2.segs.length, r.2.segmentTail, r.2.segmentHead)))
      = some ([true, true, true, true], 4, 3, 0) ∧
    ((bsaPushList 3 3 (BSA.new 4 4) [1, 2, 3, 4, 5]).map
        (fun r => (r.1, r.2.segs.length, r.2.segmentTail, r.2.segmentHead)))
      = some ([true, true, true, true, true], 5, 4, 0) ∧
    ¬ (3 - 0 + 1 < 4) ∧ ¬ (5 ≤ 4) := by
  refine ⟨by decide, by decide, by decide, by decide⟩

/-- C3 (amended): in the bounded-segment adapter a push that finds the tail
segment full links a new segment only while
`segTailIdx - segHeadIdx < K` (not `... + 1 < K`); when
`segTailIdx - segHeadIdx ≥ K` the push returns `false` without linking; and
consequently the number of live segments never exceeds `K + 1` (the
invariant `SegInv` holds initially and is preserved by push and pop). -/
theorem C3_segment_cap_amended
    (fuel crqFuel : Nat) (st : BSA) (x : Item) (b : Bool) (st' : BSA)
    (hpush : bsaPush fuel crqFuel st x = some (b, st'))
    (hinv : st.SegInv)
    (fuel2 crqFuel2 : Nat) (st2 : BSA) (r : Option Item) (st2' : BSA)
    (hpop : bsaPop fuel2 crqFuel2 st2 = some (r, st2'))
    (hinv2 : st2.SegInv)
    (sizePar segmentSize : Nat) :
    (b = false → st.maxSegments ≤ st.segmentTail - st.segmentHead ∧
      st'.segs.length = st.segs.length ∧
      st'.segmentTail = st.segmentTail) ∧
    (st'.segmentTail = st.segmentTail + 1 →
      st.segmentTail - st.segmentHead < st.maxSegments) ∧
    st'.SegInv ∧ st'.segs.length ≤ st.maxSegments + 1 ∧
    st2'.SegInv ∧ st2'.segs.length ≤ st2.maxSegments + 1 ∧
    (BSA.new sizePar segmentSize).SegInv := by
  obtain ⟨hhd, hmax, hsz, hdisj, hfalse⟩ :=
    bsa_push_spec fuel crqFuel st x b st' hpush
  obtain ⟨hinv1, hinv2len, hinv3⟩ := hinv
  have hpushinv : st'.SegInv ∧ st'.segs.length ≤ st.maxSegments + 1 := by
    rcases hdisj with ⟨hlen, htl⟩ | ⟨hb, hlen, htl, hroom⟩
    · refine ⟨⟨by omega, by omega, by omega⟩, by omega⟩
    · refine ⟨⟨by omega, by omega, by omega⟩, by omega⟩
  obtain ⟨hmax2, htl2, d, hhd2, hlen2, hpos2⟩ :=
    bsa_pop_spec fuel2 crqFuel2 st2 r st2' hpop
  obtain ⟨ha, hb2, hc⟩ := hinv2
  have hpos' : 0 < st2'.segs.length := hpos2 (by omega)
  refine ⟨hfalse, ?_, hpushinv.1, hpushinv.2,
    ⟨by omega, by omega, by omega⟩, by omega, ?_⟩
  · intro htl'
    rcases hdisj with ⟨hlen, htl⟩ | ⟨_, _, _, hroom⟩
    · omega
    · exact hroom
  · refine ⟨le_refl 0, by simp [BSA.new], by simp [BSA.new]⟩

/-- The adapter state after one successful push of item 7 into
`BSA.new 4 4` (1-cell segment ring). -/
def bsaAfterPush : BSA :=
  { segs := [{ cells := [⟨some 7, 0⟩], head := 0, tail := 1, size := 1 }]
    tailIdx := 0
    segmentTail := 0
    segmentHead := 0
    maxSegments := 4
    sizeRing := 1 }

/-- The adapter state after popping that item again. -/
def bsaAfterPop : BSA :=
  { segs := [{ cells := [⟨none, 1⟩], head := 1, tail := 1, size := 1 }]
    tailIdx := 0
    segmentTail := 0
    segmentHead := 0
    maxSegments := 4
    sizeRing := 1 }

/-- Witness for C3 (amended): a successful push and a successful pop on the
adapter with `K = 4` and 1-cell segments, both from invariant states. -/
theorem C3_witness :
    bsaPush 2 2 (BSA.new 4 4) 7 = some (true, bsaAfterPush) ∧
    (BSA.new 4 4).SegInv ∧
    bsaPop 2 3 bsaAfterPush = some (some 7, bsaAfterPop) ∧
    bsaAfterPush.SegInv ∧
    ((true = false → (4:Nat) ≤ 0 - 0 ∧ bsaAfterPush.segs.length = (BSA.new 4 4).segs.length ∧ bsaAfterPush.segmentTail = (BSA.new 4 4).segmentTail) ∧
      (bsaAfterPush.segmentTail = (BSA.new 4 4).segmentTail + 1 → (BSA.new 4 4).segmentTail - (BSA.new 4 4).segmentHead < (BSA.new 4 4).maxSegments) ∧
      bsaAfterPush.SegInv ∧
      bsaAfterPush.segs.length ≤ (BSA.new 4 4).maxSegments + 1 ∧
      bsaAfterPop.SegInv ∧
      bsaAfterPop.segs.length ≤ bsaAfterPush.maxSegments + 1 ∧
      (BSA.new 8 2).SegInv) :=
  ⟨by decide, by decide, by decide, by decide,
    C3_segment_cap_amended 2 2 (BSA.new 4 4) 7 true bsaAfterPush (by decide)
      (by decide) 2 3 bsaAfterPush (some 7) bsaAfterPop (by decide)
      (by decide) 8 2⟩

/-- The enqueue-attempt condition of §4.1 step 3 as the SPEC words it
(`cv == null ∧ epoch(ci) ≤ t ∧ (¬unsafe(ci) ∨ head ≤ t)`), for comparison
with the code's guard. -/
def specEnqueueCond (cv : Option Item) (ci t head : Nat) : Prop :=
  cv = none ∧ nodeIndex ci ≤ t ∧ (nodeUnsafe ci = 0 ∨ head ≤ t)

/-- C5 counterexample: a cell with the unsafe bit set (`ci = 2^63`, epoch 0)
at ticket `t = 5` with `head = 5`. The spec's condition (`head ≤ t`) holds,
but `CRQueue::push` tests `head < t` and does NOT attempt the enqueue
transition: the iteration leaves every cell unchanged and retries. -/
theorem C5_counterexample_head_eq_ticket :
    specEnqueueCond none (2 ^ 63) 5 5 ∧
    crqPushStep { cells := [⟨none, 2 ^ 63⟩], head := 5, tail := 5, size := 1 }
        7
      = (none,
        { cells := [⟨none, 2 ^ 63⟩], head := 5, tail := 6, size := 1 }) := by
  constructor
  · refine ⟨rfl, by decide, Or.inr (by decide)⟩
  · decide

/-- C5 (amended): in `CRQueue::push`, after claiming ticket `t = tail` by
fetch-and-add (on an un-closed segment), the enqueue transition of the
target cell to `(item, t)` is attempted — and, sequentially, succeeds —
exactly when the cell's value is null, the cell's epoch is ≤ `t`, and
either the cell's unsafe bit is clear or `head < t` (strictly; the spec
says `head ≤ t`). When the condition fails, no cell is written and the
iteration does not return `true`. -/
theorem C5_enqueue_guard_amended (s : CRQ) (item : Item)
    (hopen : isClosed s.tail = false) :
    (((s.cells.getD (crqPos s.size s.tail) ⟨none, 0⟩).val = none ∧
      nodeIndex (s.cells.getD (crqPos s.size s.tail) ⟨none, 0⟩).idx
        ≤ s.tail ∧
      (nodeUnsafe (s.cells.getD (crqPos s.size s.tail) ⟨none, 0⟩).idx = 0 ∨
        s.head < s.tail)) →
      crqPushStep s item = (some true, { s with
        tail := s.tail + 1
        cells := s.cells.set (crqPos s.size s.tail)
          ⟨some item, s.tail⟩ })) ∧
    (¬ ((s.cells.getD (crqPos s.size s.tail) ⟨none, 0⟩).val = none ∧
      nodeIndex (s.cells.getD (crqPos s.size s.tail) ⟨none, 0⟩).idx
        ≤ s.tail ∧
      (nodeUnsafe (s.cells.getD (crqPos s.size s.tail) ⟨none, 0⟩).idx = 0 ∨
        s.head < s.tail)) →
      (crqPushStep s item).2.cells = s.cells ∧
      (crqPushStep s item).1 ≠ some true) := by
  constructor
  · intro hg
    unfold crqPushStep
    rw [if_neg (by simp [hopen])]
    dsimp only
    rw [if_pos hg]
  · intro hg
    unfold crqPushStep
    rw [if_neg (by simp [hopen])]
    dsimp only
    rw [if_neg hg]
    split_ifs with hc
    · exact ⟨rfl, by simp⟩
    · exact ⟨rfl, by simp⟩

/-- Witness for C5 (amended) on a fresh 1-cell segment, where the guard
holds and the enqueue transition fires. -/
theorem C5_witness :
    isClosed (CRQ.new 1 0).tail = false ∧
    ((((CRQ.new 1 0).cells.getD (crqPos (CRQ.new 1 0).size
          (CRQ.new 1 0).tail) ⟨none, 0⟩).val = none ∧
      nodeIndex ((CRQ.new 1 0).cells.getD (crqPos (CRQ.new 1 0).size
          (CRQ.new 1 0).tail) ⟨none, 0⟩).idx ≤ (CRQ.new 1 0).tail ∧
      (nodeUnsafe ((CRQ.new 1 0).cells.getD (crqPos (CRQ.new 1 0).size
          (CRQ.new 1 0).tail) ⟨none, 0⟩).idx = 0 ∨
        (CRQ.new 1 0).head < (CRQ.new 1 0).tail) →
      crqPushStep (CRQ.new 1 0) 7 = (some true, { CRQ.new 1 0 with
        tail := (CRQ.new 1 0).tail + 1
        cells := (CRQ.new 1 0).cells.set (crqPos (CRQ.new 1 0).size
          (CRQ.new 1 0).tail) ⟨some 7, (CRQ.new 1 0).tail⟩ })) ∧
    (¬ (((CRQ.new 1 0).cells.getD (crqPos (CRQ.new 1 0).size
          (CRQ.new 1 0).tail) ⟨none, 0⟩).val = none ∧
      nodeIndex ((CRQ.new 1 0).cells.getD (crqPos (CRQ.new 1 0).size
          (CRQ.new 1 0).tail) ⟨none, 0⟩).idx ≤ (CRQ.new 1 0).tail ∧
      (nodeUnsafe ((CRQ.new 1 0).cells.getD (crqPos (CRQ.new 1 0).size
          (CRQ.new 1 0).tail) ⟨none, 0⟩).idx = 0 ∨
        (CRQ.new 1 0).head < (CRQ.new 1 0).tail)) →
      (crqPushStep (CRQ.new 1 0) 7).2.cells = (CRQ.new 1 0).cells ∧
      (crqPushStep (CRQ.new 1 0) 7).1 ≠ some true)) :=
  ⟨by decide, C5_enqueue_guard_amended (CRQ.new 1 0) 7 (by decide)⟩

/-! ## Bounded-item adapter (`BoundedItemAdapter`, over CRQ segments)

Sequential embedding, same conventions as the bounded-segment adapter.
`itemsPushed` / `itemsPopped` are `uint64_t` counters: they live in
`[0, 2^64)` and advance modulo `2^64`; `lengthAcquire()` is their
difference modulo `2^64`. `check_push` is the thread-local skip-push flag
of the calling thread. -/

structure BIA where
  segs : List CRQ
  tailIdx : Nat
  itemsPushed : Nat
  itemsPopped : Nat
  checkPush : Bool
  sizeRing : Nat
deriving DecidableEq

/-- `BoundedItemAdapter(SegmentLength, threads)`:
`sizeRing = SegmentLength > 1 ∧ isPowTwo(SegmentLength) ? SegmentLength
: nextPowTwo(SegmentLength)`, one sentinel segment, both counters 0. -/
def BIA.new (segmentLength : Nat) : BIA :=
  let n := if 1 < segmentLength ∧ detail.isPowTwo segmentLength
           then segmentLength else detail.nextPowTwo segmentLength
  { segs := [CRQ.new n 0], tailIdx := 0, itemsPushed := 0,
    itemsPopped := 0, checkPush := false, sizeRing := n }

/-- `lengthAcquire()`: `itemsPushed - itemsPopped` on `uint64_t`. -/
def BIA.lengthAcquire (st : BIA) : Nat :=
  (st.itemsPushed + 2 ^ 64 - st.itemsPopped) % 2 ^ 64

/-- The segment-allocation tail of `BoundedItemAdapter::push`: allocate a
segment starting at `getNextSegmentStartIndex()` of the current tail, push
the item into it (the result is discarded by the source), link it (the CAS
succeeds sequentially), bump `itemsPushed`, advance the tail pointer and
reset `check_push`. -/
def biaLink (crqFuel : Nat) (st : BIA) (x : Item) : Option (Bool × BIA) :=
  match crqPush crqFuel
      (CRQ.new st.sizeRing
        ((st.segs.getD st.tailIdx crqDefault).nextSegmentStartIndex)) x with
  | none => none
  | some (_, ns) =>
    some (true, { st with
      segs := st.segs ++ [ns]
      tailIdx := st.segs.length
      itemsPushed := (st.itemsPushed + 1) % 2 ^ 64
      checkPush := false })

/-- `BoundedItemAdapter::push`, sequential, on fuel. -/
def biaPush : Nat → Nat → BIA → Item → Option (Bool × BIA)
  | 0, _, _, _ => none
  | fuel + 1, crqFuel, st, x =>
    if st.lengthAcquire ≥ st.sizeRing then some (false, st)
    else if st.tailIdx + 1 < st.segs.length then
      biaPush fuel crqFuel { st with
        tailIdx := st.tailIdx + 1
        checkPush := false } x
    else
      -- if(check_push) check_push = ltail->isClosed();
      if (if st.checkPush then (st.segs.getD st.tailIdx crqDefault).closed
          else false) then
        biaLink crqFuel { st with checkPush := true } x
      else
        match crqPush crqFuel (st.segs.getD st.tailIdx crqDefault) x with
        | none => none
        | some (true, lt2) =>
          some (true, { st with
            segs := st.segs.set st.tailIdx lt2
            itemsPushed := (st.itemsPushed + 1) % 2 ^ 64
            checkPush := false })
        | some (false, lt2) =>
          biaLink crqFuel { st with
            segs := st.segs.set st.tailIdx lt2
            checkPush := true } x

/-- `BoundedItemAdapter::pop`, sequential, on fuel. A non-null return bumps
`itemsPopped` (the source increments once after the loop breaks). -/
def biaPop : Nat → Nat → BIA → Option (Option Item × BIA)
  | 0, _, _ => none
  | fuel + 1, crqFuel, st =>
    match crqPop crqFuel (st.segs.getD 0 crqDefault) with
    | none => none
    | some (some v, h1) =>
      some (some v, { st with
        segs := st.segs.set 0 h1
        itemsPopped := (st.itemsPopped + 1) % 2 ^ 64 })
    | some (none, h1) =>
      let st1 : BIA := { st with segs := st.segs.set 0 h1 }
      if st1.segs.length ≤ 1 then
        some (none, st1)
      else
        match crqPop crqFuel (st1.segs.getD 0 crqDefault) with
        | none => none
        | some (some v, h2) =>
          some (some v, { st1 with
            segs := st1.segs.set 0 h2
            itemsPopped := (st1.itemsPopped + 1) % 2 ^ 64 })
        | some (none, h2) =>
          biaPop fuel crqFuel { st1 with
            segs := (st1.segs.set 0 h2).drop 1
            tailIdx := st1.tailIdx - 1 }

theorem biaLink_spec (crqFuel : Nat) (st : BIA) (x : Item) (b : Bool)
    (st' : BIA) (h : biaLink crqFuel st x = some (b, st')) :
    b = true ∧ st'.itemsPushed = (st.itemsPushed + 1) % 2 ^ 64 ∧
      st'.itemsPopped = st.itemsPopped := by
  rw [biaLink] at h
  split at h
  · exact absurd h (by simp)
  · simp only [Option.some.injEq, Prod.mk.injEq] at h
    obtain ⟨hb, hst⟩ := h
    subst hst
    exact ⟨hb.symm, rfl, rfl⟩

/-- Counter behaviour of a sequential `BoundedItemAdapter::push`: a `true`
return bumps `itemsPushed` by exactly one (mod `2^64`) and leaves
`itemsPopped` alone; a `false` return leaves both counters alone. -/
theorem bia_push_counters : ∀ (fuel crqFuel : Nat) (st : BIA) (x : Item)
    (b : Bool) (st' : BIA), biaPush fuel crqFuel st x = some (b, st') →
    (b = true → st'.itemsPushed = (st.itemsPushed + 1) % 2 ^ 64 ∧
      st'.itemsPopped = st.itemsPopped) ∧
    (b = false → st'.itemsPushed = st.itemsPushed ∧
      st'.itemsPopped = st.itemsPopped) := by
  intro fuel
  induction fuel with
  | zero =>
    intro cf st x b st' hp
    simp [biaPush] at hp
  | succ n ih =>
    intro cf st x b st' hp
    rw [biaPush] at hp
    split at hp
    · -- entry check: full, return false unchanged
      simp only [Option.some.injEq, Prod.mk.injEq] at hp
      obtain ⟨hb, hst⟩ := hp
      subst hst
      refine ⟨?_, fun _ => ⟨rfl, rfl⟩⟩
      intro hbt
      rw [← hb] at hbt
      simp at hbt
    · split at hp
      · -- tail-pointer advance, recurse
        exact ih cf
          { st with tailIdx := st.tailIdx + 1, checkPush := false }
          x b st' hp
      · -- the skip-push condition `if(check_push) check_push = isClosed()`
        split at hp
        · -- check_push was true: test whether the tail is still closed
          split at hp
          · -- still closed: skip the segment push and allocate
            have h := biaLink_spec cf _ x b st' hp
            refine ⟨fun _ => ⟨h.2.1, h.2.2⟩, ?_⟩
            intro hbf
            rw [h.1] at hbf
            simp at hbf
          · -- reopened is impossible, but the code would push normally
            split at hp
            · exact absurd hp (by simp)
            · simp only [Option.some.injEq, Prod.mk.injEq] at hp
              obtain ⟨hb, hst⟩ := hp
              subst hst
              refine ⟨fun _ => ⟨rfl, rfl⟩, ?_⟩
              intro hbf
              rw [← hb] at hbf
              simp at hbf
            · have h := biaLink_spec cf _ x b st' hp
              refine ⟨fun _ => ⟨h.2.1, h.2.2⟩, ?_⟩
              intro hbf
              rw [h.1] at hbf
              simp at hbf
        · -- check_push was false: push on the tail segment
          split at hp
          · -- the then-branch would need `false = true`
            rename_i hcontra
            simp at hcontra
          · split at hp
            · exact absurd hp (by simp)
            · simp only [Option.some.injEq, Prod.mk.injEq] at hp
              obtain ⟨hb, hst⟩ := hp
              subst hst
              refine ⟨fun _ => ⟨rfl, rfl⟩, ?_⟩
              intro hbf
              rw [← hb] at hbf
              simp at hbf
            · have h := biaLink_spec cf _ x b st' hp
              refine ⟨fun _ => ⟨h.2.1, h.2.2⟩, ?_⟩
              intro hbf
              rw [h.1] at hbf
              simp at hbf

/-- Counter behaviour of a sequential `BoundedItemAdapter::pop`: a non-null
return bumps `itemsPopped` by exactly one (mod `2^64`) and leaves
`itemsPushed` alone; a null return leaves both counters alone. -/
theorem bia_pop_counters : ∀ (fuel crqFuel : Nat) (st : BIA)
    (r : Option Item) (st' : BIA), biaPop fuel crqFuel st = some (r, st') →
    ((∃ v, r = some v) →
      st'.itemsPopped = (st.itemsPopped + 1) % 2 ^ 64 ∧
      st'.itemsPushed = st.itemsPushed) ∧
    (r = none → st'.itemsPopped = st.itemsPopped ∧
      st'.itemsPushed = st.itemsPushed) := by
  intro fuel
  induction fuel with
  | zero =>
    intro cf st r st' hp
    simp [biaPop] at hp
  | succ n ih =>
    intro cf st r st' hp
    rw [biaPop] at hp
    split at hp
    · exact absurd hp (by simp)
    · -- first pop returned an item
      simp only [Option.some.injEq, Prod.mk.injEq] at hp
      obtain ⟨hr, hst⟩ := hp
      subst hst
      refine ⟨fun _ => ⟨rfl, rfl⟩, ?_⟩
      intro hrn
      rw [← hr] at hrn
      simp at hrn
    · dsimp only at hp
      split at hp
      · -- no next segment: null return, counters unchanged
        simp only [Option.some.injEq, Prod.mk.injEq] at hp
        obtain ⟨hr, hst⟩ := hp
        subst hst
        refine ⟨?_, fun _ => ⟨rfl, rfl⟩⟩
        rintro ⟨v, hv⟩
        rw [← hr] at hv
        simp at hv
      · split at hp
        · exact absurd hp (by simp)
        · -- second pop returned an item
          simp only [Option.some.injEq, Prod.mk.injEq] at hp
          obtain ⟨hr, hst⟩ := hp
          subst hst
          refine ⟨fun _ => ⟨rfl, rfl⟩, ?_⟩
          intro hrn
          rw [← hr] at hrn
          simp at hrn
        · -- retire the drained head segment and loop
          have h := ih cf _ r st' hp
          exact h

/-- The entry check of `BoundedItemAdapter::push`: when the acquire-read
counters already satisfy `itemsPushed - itemsPopped ≥ capacity` (difference
mod `2^64`), the push returns `false` immediately, touching nothing. -/
theorem bia_push_entry_full (fuel crqFuel : Nat) (st : BIA) (x : Item)
    (hfull : st.lengthAcquire ≥ st.sizeRing) :
    biaPush (fuel + 1) crqFuel st x = some (false, st) := by
  rw [biaPush, if_pos hfull]

/-- C4: for the bounded-item adapter, sequentially: (1) whenever push at
entry reads `itemsPushed - itemsPopped ≥ capacity` (acquire loads,
difference mod `2^64`) it returns `false` with the state unchanged; (2)
every push that returns `true` increments `itemsPushed` by exactly 1 (mod
`2^64`) and leaves `itemsPopped` alone; (3) every push that returns `false`
leaves both counters alone; (4) every pop that returns a non-null item
increments `itemsPopped` by exactly 1 (mod `2^64`) and leaves `itemsPushed`
alone; (5) a null pop leaves both counters alone. In particular neither
counter is ever decreased. -/
theorem C4_bounded_item_counters
    (stFull : BIA) (x0 : Item) (fuel0 crqFuel0 : Nat)
    (hfull : stFull.lengthAcquire ≥ stFull.sizeRing)
    (fuel crqFuel : Nat) (st : BIA) (x : Item) (b : Bool) (st' : BIA)
    (hpush : biaPush fuel crqFuel st x = some (b, st'))
    (fuel2 crqFuel2 : Nat) (st2 : BIA) (r : Option Item) (st2' : BIA)
    (hpop : biaPop fuel2 crqFuel2 st2 = some (r, st2')) :
    biaPush (fuel0 + 1) crqFuel0 stFull x0 = some (false, stFull) ∧
    (b = true → st'.itemsPushed = (st.itemsPushed + 1) % 2 ^ 64 ∧
      st'.itemsPopped = st.itemsPopped) ∧
    (b = false → st'.itemsPushed = st.itemsPushed ∧
      st'.itemsPopped = st.itemsPopped) ∧
    ((∃ v, r = some v) →
      st2'.itemsPopped = (st2.itemsPopped + 1) % 2 ^ 64 ∧
      st2'.itemsPushed = st2.itemsPushed) ∧
    (r = none → st2'.itemsPopped = st2.itemsPopped ∧
      st2'.itemsPushed = st2.itemsPushed) := by
  have h1 := bia_push_entry_full fuel0 crqFuel0 stFull x0 hfull
  have h2 := bia_push_counters fuel crqFuel st x b st' hpush
  have h3 := bia_pop_counters fuel2 crqFuel2 st2 r st2' hpop
  exact ⟨h1, h2.1, h2.2, h3.1, h3.2⟩

/-- The adapter state after one successful push of 7 into `BIA.new 2`. -/
def biaAfterPush : BIA :=
  { segs := [{ cells := [⟨some 7, 0⟩, ⟨none, 1⟩], head := 0, tail := 1,
               size := 2 }]
    tailIdx := 0
    itemsPushed := 1
    itemsPopped := 0
    checkPush := false
    sizeRing := 2 }

/-- The adapter state after popping that item again. -/
def biaAfterPop : BIA :=
  { segs := [{ cells := [⟨none, 2⟩, ⟨none, 1⟩], head := 1, tail := 1,
               size := 2 }]
    tailIdx := 0
    itemsPushed := 1
    itemsPopped := 1
    checkPush := false
    sizeRing := 2 }

/-- A full bounded-item adapter state (counters says 2 items in a ring of
2). -/
def biaFull : BIA :=
  { segs := [CRQ.new 2 0]
    tailIdx := 0
    itemsPushed := 2
    itemsPopped := 0
    checkPush := false
    sizeRing := 2 }

/-- Witness for C4: the full state rejects a push unchanged, a successful
push bumps `itemsPushed` only, and a successful pop bumps `itemsPopped`
only. -/
theorem C4_witness :
    biaFull.lengthAcquire ≥ biaFull.sizeRing ∧
    biaPush 2 3 (BIA.new 2) 7 = some (true, biaAfterPush) ∧
    biaPop 2 4 biaAfterPush = some (some 7, biaAfterPop) ∧
    (biaPush (1 + 1) 1 biaFull 9 = some (false, biaFull) ∧
      (true = true → biaAfterPush.itemsPushed
          = ((BIA.new 2).itemsPushed + 1) % 2 ^ 64 ∧
        biaAfterPush.itemsPopped = (BIA.new 2).itemsPopped) ∧
      (true = false → biaAfterPush.itemsPushed = (BIA.new 2).itemsPushed ∧
        biaAfterPush.itemsPopped = (BIA.new 2).itemsPopped) ∧
      ((∃ v, (some 7 : Option Item) = some v) →
        biaAfterPop.itemsPopped = (biaAfterPush.itemsPopped + 1) % 2 ^ 64 ∧
        biaAfterPop.itemsPushed = biaAfterPush.itemsPushed) ∧
      ((some 7 : Option Item) = none →
        biaAfterPop.itemsPopped = biaAfterPush.itemsPopped ∧
        biaAfterPop.itemsPushed = biaAfterPush.itemsPushed)) :=
  ⟨by decide, by decide, by decide,
    C4_bounded_item_counters biaFull 9 1 1 (by decide)
      2 3 (BIA.new 2) 7 true biaAfterPush (by decide)
      2 4 biaAfterPush (some 7) biaAfterPop (by decide)⟩

/-! ## All-to-all mesh (`All2All`, P×C matrix of SPSC rings)

Sequential embedding of the thread-local-cursor version of `All2All::push`:
```
bool push(T* item, const int tid){
    const int producer = tid % producers;
    for(int i = current_consumer; i < consumers; i++){
        if((queueMatrix[producer][i])->push(item)){
            current_consumer = ((i + 1) == producers)? 0 : i;
            return true;
        }
    }
    for(int i = 0; i < current_consumer; i++){
        if((queueMatrix[producer][i])->push(item)){
            current_consumer = i;
            return true;
        }
    }
    return false;
}
```
A failed SPSC push does not modify its ring, so the scan may re-read the
original row. `current_consumer` is the calling producer's thread-local
cursor, carried in the state. -/

structure All2All where
  queueMatrix : List (List SPSCQueue)
  producers : Nat
  consumers : Nat
  currentConsumer : Nat
deriving DecidableEq

/-- Scan a row at the given column indices; first successful SPSC push
wins. -/
def a2aScan (row : List SPSCQueue) (item : Item) :
    List Nat → Option (Nat × SPSCQueue)
  | [] => none
  | i :: rest =>
    if ((row.getD i (SPSCQueue.new 0)).push item).1 then
      some (i, ((row.getD i (SPSCQueue.new 0)).push item).2)
    else a2aScan row item rest

/-- `All2All::push`. -/
def a2aPush (st : All2All) (tid : Nat) (item : Item) : Bool × All2All :=
  let p := tid % st.producers
  let row := st.queueMatrix.getD p []
  match a2aScan row item
      (List.range' st.currentConsumer
        (st.consumers - st.currentConsumer)) with
  | some (i, q2) =>
    (true, { st with
      queueMatrix := st.queueMatrix.set p (row.set i q2)
      currentConsumer := if i + 1 = st.producers then 0 else i })
  | none =>
    match a2aScan row item (List.range st.currentConsumer) with
    | some (i, q2) =>
      (true, { st with
        queueMatrix := st.queueMatrix.set p (row.set i q2)
        currentConsumer := i })
    | none => (false, st)

/-- The column scan order of a push: rightwards from the cursor, then from
column 0 up to the cursor. -/
def a2aOrder (st : All2All) : List Nat :=
  List.range' st.currentConsumer (st.consumers - st.currentConsumer) ++
    List.range st.currentConsumer

/-- The row of the calling producer. -/
def a2aRow (st : All2All) (tid : Nat) : List SPSCQueue :=
  st.queueMatrix.getD (tid % st.producers) []

/-- The scan is the first accepting column in the given order. -/
theorem a2aScan_eq_find (row : List SPSCQueue) (item : Item) :
    ∀ l : List Nat, a2aScan row item l =
      (l.find? (fun j => (row.getD j (SPSCQueue.new 0)).available)).map
        (fun j => (j, ((row.getD j (SPSCQueue.new 0)).push item).2)) := by
  intro l
  induction l with
  | nil => rfl
  | cons i rest ih =>
    rw [a2aScan, List.find?]
    by_cases h : (row.getD i (SPSCQueue.new 0)).available
    · rw [List.getD_eq_getElem?_getD] at h
      simp [SPSCQueue.push, h]
    · have h' : ((row.getD i (SPSCQueue.new 0)).available) = false := by
        rcases Bool.eq_false_or_eq_true
          ((row.getD i (SPSCQueue.new 0)).available) with h1 | h1
        · exact absurd h1 h
        · exact h1
      rw [List.getD_eq_getElem?_getD] at h'
      simp only [SPSCQueue.push, List.getD_eq_getElem?_getD, h',
        Bool.false_eq_true, if_false]
      simpa [List.getD_eq_getElem?_getD] using ih

/-! #### All2All cursor update (C7)

The spec says the cursor moves to the column after the successful one. In
the source the rightward loop runs `current_consumer = ((i + 1) ==
producers)? 0 : i;` — it compares `i + 1` against `producers` (not
`consumers`) and stores the successful column `i` itself — and the
wrap-around loop runs `current_consumer = i;`. The named header
`src/include/All2All/All2All.hpp` likewise stores `producer_idx = i;` on
success in either fallback loop. -/

/-- A concrete All2All state: 2 producers, 3 consumers, the producer
cursor at column 0, every pairwise SPSC ring empty with capacity 2. -/
def a2aDemo : All2All :=
  { queueMatrix := List.replicate 2 (List.replicate 3 (SPSCQueue.new 2))
    producers := 2
    consumers := 3
    currentConsumer := 0 }

/-- C7, counterexample: in `a2aDemo` the push by thread 0 succeeds at
column 0 (the first column scanned from the cursor), yet the cursor
afterwards is still 0 — not the next column 1 that the claim requires —
because the source stores the successful column `i`, not `i + 1`. -/
theorem C7_counterexample_cursor_update :
    (a2aPush a2aDemo 0 7).1 = true ∧
      (a2aPush a2aDemo 0 7).2.currentConsumer = 0 ∧ (0 : Nat) ≠ 0 + 1 := by
  decide

/-- C7, amended: full characterization of `All2All::push`. The scan visits
row `tid % producers` in the order `a2aOrder` (cursor rightwards to the
last column, then column 0 up to the cursor) and succeeds at the first
column `j` whose SPSC ring has a free slot, pushing the item there and
returning `true`; the cursor is then set to the successful column `j`
itself — except that a success in the rightward loop with `j + 1 =
producers` (the producer count, not the consumer count) resets it to 0 —
and when no column accepts, `false` is returned with the state
unchanged. -/
theorem C7_push_characterization (st : All2All) (tid : Nat) (item : Item) :
    a2aPush st tid item =
      match (a2aOrder st).find?
          (fun j => ((a2aRow st tid).getD j (SPSCQueue.new 0)).available) with
      | none => (false, st)
      | some j =>
        (true, { st with
          queueMatrix := st.queueMatrix.set (tid % st.producers)
            ((a2aRow st tid).set j
              (((a2aRow st tid).getD j (SPSCQueue.new 0)).push item).2)
          currentConsumer :=
            if st.currentConsumer ≤ j then
              (if j + 1 = st.producers then 0 else j)
            else j }) := by
  simp only [a2aRow, a2aOrder]
  rw [a2aPush]
  rw [a2aScan_eq_find, a2aScan_eq_find, List.find?_append]
  cases hfind1 : (List.range' st.currentConsumer
      (st.consumers - st.currentConsumer)).find?
      (fun j => ((st.queueMatrix.getD (tid % st.producers) []).getD j
        (SPSCQueue.new 0)).available) with
  | none =>
    cases hfind2 : (List.range st.currentConsumer).find?
        (fun j => ((st.queueMatrix.getD (tid % st.producers) []).getD j
          (SPSCQueue.new 0)).available) with
    | none => rfl
    | some j =>
      have hj : j < st.currentConsumer :=
        List.mem_range.mp (List.mem_of_find?_eq_some hfind2)
      have hle : ¬ st.currentConsumer ≤ j := by omega
      simp [hle]
  | some j =>
    have hj : st.currentConsumer ≤ j :=
      (List.mem_range'_1.mp (List.mem_of_find?_eq_some hfind1)).1
    simp [hj]

end TestQueue
